import Mathlib

/-!
Verification development for the NFFS log-structured flash filesystem and the
newtmgr log management handlers of this repository.

Two groups of definitions appear below.

The NFFS group (`NffsModel`) is modelled from the specification: the repository
snapshot contains only the NFFS test case `nffs_test_incomplete_block`
(appended to `src/sys/log/src/log_nmgr.c`), not the NFFS implementation
itself, so the data model, the restore/detect engine, the object index, the
directory-tree operations and the garbage collector are embedded from the
spec's own words (sections 3, 4.3-4.7 of the spec).

The log-manager group (`LogNmgr`) is a shallow embedding of the C code of
`src/sys/log/src/log_nmgr.c`: `struct encode_off`, `log_nmgr_encode_entry`,
`log_encode_entries` and `log_nmgr_read`, with machine integers as `Nat`/`Int`
plus explicit `% 2 ^ w` where C conversions truncate.
-/

namespace NffsModel

/-- Modelled from the spec: an inode record's fields (object id, sequence
number, parent directory id, name, directory flag, deleted-tombstone flag,
last-block id which is the head of the file's block chain, most recent
first).  The NFFS record codec itself is absent from the sources; field
layout follows spec section 3, "Inode Record". -/
structure InodeRec where
  iid : Nat
  iseq : Nat
  iparent : Nat
  iname : String
  idir : Bool
  ideleted : Bool
  ilastBlock : Nat
  deriving DecidableEq, Repr

/-- Modelled from the spec: a data-block record's fields (object id,
sequence number, owning inode id, previous-block id with 0 as the
first-block sentinel, payload bytes).  Spec section 3, "Block Record". -/
structure BlockRec where
  bid : Nat
  bseq : Nat
  bowner : Nat
  bprev : Nat
  bdata : List Nat
  deriving DecidableEq, Repr

/-- Modelled from the spec: the tagged disk-record variant {inode, block}
(spec section 9, "Union-style record header with type tag"). -/
inductive DiskRecord where
  | inode (i : InodeRec)
  | block (b : BlockRec)
  deriving DecidableEq, Repr

/-- Object id of a disk record. -/
def DiskRecord.rid : DiskRecord → Nat
  | .inode i => i.iid
  | .block b => b.bid

/-- Sequence number of a disk record. -/
def DiskRecord.rseq : DiskRecord → Nat
  | .inode i => i.iseq
  | .block b => b.bseq

/-- The reserved, well-known object id of the root directory
(spec section 3, "Directory Tree Node"). -/
def rootId : Nat := 0

/-- Modelled from the spec: `insert_or_replace` of the Object Index
(spec section 4.3 and section 4.4 step 3): a record replaces the entry for
its id only when no entry exists yet or its sequence number is strictly
greater than the indexed one; otherwise it is ignored as a stale duplicate. -/
def insertRec (w : Nat → Option DiskRecord) (r : DiskRecord) :
    Nat → Option DiskRecord :=
  fun id =>
    if id = r.rid then
      match w r.rid with
      | none => some r
      | some old => if old.rseq < r.rseq then some r else some old
    else w id

/-- Modelled from the spec: the Object Index accumulated by the Restore
Engine over a list of surviving records (spec section 4.4 step 3,
"Object Accumulation"). -/
def winner (l : List DiskRecord) : Nat → Option DiskRecord :=
  l.foldl insertRec (fun _ => none)

/-- Modelled from the spec: walk a file's block chain backwards from head
id `hd` (0 is the first-block sentinel), requiring each visited id to
resolve to a surviving block owned by `owner`; return the file contents in
file order, or `none` when the chain does not fully resolve
(spec sections 4.4 step 5 and 4.6).  `fuel` bounds the walk. -/
def chainW (w : Nat → Option DiskRecord) (owner : Nat) :
    Nat → Nat → Option (List Nat)
  | _, 0 => some []
  | 0, _ + 1 => none
  | fuel + 1, hd + 1 =>
    match w (hd + 1) with
    | some (DiskRecord.block b) =>
      if b.bowner = owner then
        (chainW w owner fuel b.bprev).map (fun cs => cs ++ b.bdata)
      else none
    | _ => none

/-- Modelled from the spec: whether an id resolves, through surviving
non-deleted directory inodes, up to the root (spec section 4.4 steps 4
and 6: records whose parent cannot be resolved are dropped).  `fuel`
bounds the parent walk; a parent cycle therefore yields `false`, which
matches the spec (a cycle never reaches the root). -/
def reachW (w : Nat → Option DiskRecord) : Nat → Nat → Bool
  | _, 0 => true
  | 0, _ + 1 => false
  | fuel + 1, id + 1 =>
    match w (id + 1) with
    | some (DiskRecord.inode i) => i.idir && !i.ideleted && reachW w fuel i.iparent
    | _ => false

/-- Observable view of one directory-tree node after restore: parent id,
name, directory flag and (for files) full contents. -/
structure FsView where
  vparent : Nat
  vname : String
  vdir : Bool
  vcontents : List Nat
  deriving DecidableEq, Repr

/-- Modelled from the spec: the Directory Tree node the Restore Engine
produces for object id `id`, given the Object Index `w` (spec section 4.4
steps 4-6).  A tombstoned inode, an inode whose parent does not resolve to
a reachable directory, and a file whose block chain does not fully resolve
are all absent from the tree (`none`); in particular a file with a broken
chain is removed entirely, never truncated (step 5, corrupt-chain policy). -/
def restoreLiveW (w : Nat → Option DiskRecord) (fuel : Nat) (id : Nat) :
    Option FsView :=
  match w id with
  | some (DiskRecord.inode i) =>
    if i.ideleted then none
    else if !reachW w fuel i.iparent then none
    else if i.idir then some ⟨i.iparent, i.iname, true, []⟩
    else
      match chainW w id fuel i.ilastBlock with
      | some cs => some ⟨i.iparent, i.iname, false, cs⟩
      | none => none
  | _ => none

/-- Modelled from the spec: a record slot as the mount-time linear scan
sees it: a fully valid record, a parseable record whose checksum fails
(skipped, scan continues: spec section 9's mid-area asymmetry note), or a
truncated/unparseable record marking the effective end of written data in
the area (spec section 4.4 step 2). -/
inductive ScanItem where
  | ok (r : DiskRecord)
  | badCk (r : DiskRecord)
  | truncated
  deriving DecidableEq, Repr

/-- Modelled from the spec: the encoded size of a record on flash.  Exact
field widths are an implementation choice per spec section 6; a fixed
header size plus the variable payload is used here, which is all the write
cursor arithmetic depends on. -/
def recSize : DiskRecord → Nat
  | .inode i => 20 + i.iname.length
  | .block b => 24 + b.bdata.length

/-- Modelled from the spec: the linear scan of one area (spec section 4.4
step 2): records are validated in order; a checksum failure on a parseable
record skips that record and continues; a truncated record stops the scan
and everything after it is treated as free space.  Returns the surviving
records and the reset write cursor (the offset at which scanning stopped). -/
def scanArea : List ScanItem → List DiskRecord × Nat
  | [] => ([], 0)
  | ScanItem.ok r :: rest =>
    let p := scanArea rest
    (r :: p.1, recSize r + p.2)
  | ScanItem.badCk r :: rest =>
    let p := scanArea rest
    (p.1, recSize r + p.2)
  | ScanItem.truncated :: _ => ([], 0)

/-- Surviving records of a whole flash image, areas scanned in order. -/
def areaRecs (areas : List (List ScanItem)) : List DiskRecord :=
  areas.foldr (fun a acc => (scanArea a).1 ++ acc) []

/-- Modelled from the spec: the mount-time restore/detect entry point
(spec section 4.4): scan every area, and fail fatally exactly when the
root directory cannot be found as a surviving object. -/
def detect (areas : List (List ScanItem)) : Option (List DiskRecord) :=
  let recs := areaRecs areas
  match winner recs rootId with
  | some (DiskRecord.inode i) => if i.idir && !i.ideleted then some recs else none
  | _ => none

/-- Directory-tree node for id `id` restored from the surviving records
`recs`, with fuel canonically `recs.length + 1` (enough for any acyclic
parent or block chain drawn from `recs`). -/
def restoreLive (recs : List DiskRecord) (id : Nat) : Option FsView :=
  restoreLiveW (winner recs) (recs.length + 1) id

/-! ### Chain-gap predicate (spec section 4.4 step 5) -/

/-- Walk `n` steps backwards through the block chain from `hd`, following
surviving blocks owned by `owner`; return the id reached. -/
def walkN (w : Nat → Option DiskRecord) (owner : Nat) :
    Nat → Nat → Option Nat
  | 0, hd => some hd
  | n + 1, hd =>
    if hd = 0 then none
    else
      match w hd with
      | some (DiskRecord.block b) =>
        if b.bowner = owner then walkN w owner n b.bprev else none
      | _ => none

/-- Whether id `x` resolves to a surviving block in the index `w`. -/
def resolvesBlock (w : Nat → Option DiskRecord) (x : Nat) : Prop :=
  ∃ b, w x = some (DiskRecord.block b)

/-- Modelled from the spec: a gap in a file's block chain (spec section 4.4
step 5): some block reachable from the chain head has a declared
previous-block id that is not the first-block sentinel and does not resolve
to a surviving block. -/
def hasGap (w : Nat → Option DiskRecord) (owner hd : Nat) : Prop :=
  ∃ n x b, walkN w owner n hd = some x ∧ x ≠ 0 ∧
    w x = some (DiskRecord.block b) ∧ b.bowner = owner ∧
    b.bprev ≠ 0 ∧ ¬resolvesBlock w b.bprev

/-! ### Garbage collection (spec section 4.7) -/

/-- Whether the target block id occurs in the chain hanging off head `hd`. -/
def inChain (recs : List DiskRecord) (owner hd target : Nat) : Bool :=
  (List.range (recs.length + 1)).any
    (fun n => walkN (winner recs) owner n hd == some target)

/-- Modelled from the spec: whether a surviving record is live, i.e.
reachable from the Directory Tree (spec section 4.7: the collector walks
the tree and every file's block chain): the record must be the indexed
version of its id, and an inode must be attached to the restored tree while
a block must belong to an attached file's chain. -/
def liveRec (recs : List DiskRecord) (r : DiskRecord) : Bool :=
  match r with
  | DiskRecord.inode i =>
    decide (winner recs i.iid = some (DiskRecord.inode i)) &&
      (restoreLive recs i.iid).isSome
  | DiskRecord.block b =>
    decide (winner recs b.bid = some (DiskRecord.block b)) &&
      (match winner recs b.bowner with
       | some (DiskRecord.inode i) =>
         (restoreLive recs b.bowner).isSome &&
           inChain recs b.bowner i.ilastBlock b.bid
       | _ => false)

/-- Modelled from the spec: `collect(source_area)` (spec section 4.7): the
live records of area `k` are re-appended unchanged (same sequence numbers)
into a scratch area, then the source area is erased. -/
def collect (areas : List (List ScanItem)) (k : Nat) : List (List ScanItem) :=
  let recs := areaRecs areas
  let src := (scanArea (areas.getD k [])).1
  areas.set k [] ++ [(src.filter (fun r => liveRec recs r)).map ScanItem.ok]

/-! ### Mutating operations (spec sections 4.5 and 4.6) -/

/-- In-memory state of one live object as the Directory Tree / Block Chain
Manager sees it: parent, name, kind, current sequence number, block-chain
head and full file contents. -/
structure LiveObj where
  oparent : Nat
  oname : String
  odir : Bool
  oseq : Nat
  olastBlock : Nat
  ocontents : List Nat
  deriving DecidableEq, Repr

/-- First-match association-list lookup for the in-memory table. -/
def memLookup : List (Nat × LiveObj) → Nat → Option LiveObj
  | [], _ => none
  | (k, v) :: t, id => if k = id then some v else memLookup t id

/-- Replace the entry for `id` (all occurrences) by `(id, o)`. -/
def memUpdate : List (Nat × LiveObj) → Nat → LiveObj → List (Nat × LiveObj)
  | [], _, _ => []
  | (k, v) :: t, id, o =>
    if k = id then (id, o) :: memUpdate t id o else (k, v) :: memUpdate t id o

/-- Remove every entry keyed by `id`. -/
def memErase : List (Nat × LiveObj) → Nat → List (Nat × LiveObj)
  | [], _ => []
  | (k, v) :: t, id =>
    if k = id then memErase t id else (k, v) :: memErase t id

/-- No live object is a child of `id` (the root's self-parent link does not
count as a child edge). -/
def childFree (m : List (Nat × LiveObj)) (id : Nat) : Bool :=
  m.all (fun e => decide (e.2.oparent ≠ id ∨ e.1 = rootId))

/-- No sibling under `p` already bears the name `nm` (spec section 4.5:
names are unique among siblings). -/
def nameFree (m : List (Nat × LiveObj)) (p : Nat) (nm : String) : Bool :=
  m.all (fun e => decide (¬(e.2.oparent = p ∧ e.2.oname = nm ∧ e.1 ≠ rootId)))

/-- The whole system state: the single active area's appended records
(`img`) and the transient in-memory state (`mem`), with the id allocator. -/
structure Sys where
  img : List DiskRecord
  mem : List (Nat × LiveObj)
  nextId : Nat
  deriving Repr

/-- Root directory as a live object. -/
def rootObj : LiveObj := ⟨0, "", true, 0, 0, []⟩

/-- Root directory inode record written at format time. -/
def rootRec : DiskRecord := DiskRecord.inode ⟨0, 0, 0, "", true, false, 0⟩

/-- State right after `format`: the root inode is on flash and in memory. -/
def initSys : Sys := ⟨[rootRec], [(0, rootObj)], 1⟩

/-- Modelled from the spec: the file-system operations (spec sections 4.5
and 4.6): directory creation, file creation, file append and unlink. -/
inductive Op where
  | mkdir (p : Nat) (nm : String)
  | mkfile (p : Nat) (nm : String)
  | fwrite (id : Nat) (data : List Nat)
  | funlink (id : Nat)
  deriving DecidableEq, Repr

/-- Modelled from the spec: creation appends a fresh inode record before
updating the in-memory tree (spec section 4.5). -/
def doCreate (s : Sys) (p : Nat) (nm : String) (dirFlag : Bool) : Sys :=
  { img := s.img ++ [DiskRecord.inode ⟨s.nextId, 0, p, nm, dirFlag, false, 0⟩],
    mem := (s.nextId, ⟨p, nm, dirFlag, 0, 0, []⟩) :: s.mem,
    nextId := s.nextId + 1 }

/-- Modelled from the spec: an append writes the new block record first and
then the inode record with a bumped sequence number pointing at it
(spec section 4.6: block before inode). -/
def doWrite (s : Sys) (id : Nat) (o : LiveObj) (data : List Nat) : Sys :=
  { img := s.img ++
      [DiskRecord.block ⟨s.nextId, 0, id, o.olastBlock, data⟩,
       DiskRecord.inode ⟨id, o.oseq + 1, o.oparent, o.oname, false, false, s.nextId⟩],
    mem := memUpdate s.mem id
      ⟨o.oparent, o.oname, false, o.oseq + 1, s.nextId, o.ocontents ++ data⟩,
    nextId := s.nextId + 1 }

/-- Modelled from the spec: unlink appends a deleted-tombstone inode record
with a bumped sequence number (spec section 3, lifecycles). -/
def doUnlink (s : Sys) (id : Nat) (o : LiveObj) : Sys :=
  { img := s.img ++
      [DiskRecord.inode ⟨id, o.oseq + 1, o.oparent, o.oname, o.odir, true, o.olastBlock⟩],
    mem := memErase s.mem id,
    nextId := s.nextId }

/-- Modelled from the spec: apply one operation; an operation whose guard
fails (missing parent, name collision, write to a directory, unlink of the
root or of a non-empty directory) performs nothing (spec sections 4.5
and 4.6 failure conditions). -/
def applyOp (s : Sys) : Op → Sys
  | Op.mkdir p nm =>
    match memLookup s.mem p with
    | some po => if po.odir && nameFree s.mem p nm then doCreate s p nm true else s
    | none => s
  | Op.mkfile p nm =>
    match memLookup s.mem p with
    | some po => if po.odir && nameFree s.mem p nm then doCreate s p nm false else s
    | none => s
  | Op.fwrite id data =>
    match memLookup s.mem id with
    | some o => if o.odir then s else doWrite s id o data
    | none => s
  | Op.funlink id =>
    if id = rootId then s
    else
      match memLookup s.mem id with
      | some o => if o.odir && !childFree s.mem id then s else doUnlink s id o
      | none => s

/-- Run a sequence of operations starting from the freshly formatted state. -/
def runOps (ops : List Op) : Sys := ops.foldl applyOp initSys

/-- Observable projection of an in-memory object. -/
def memView : Option LiveObj → Option FsView
  | some o => some ⟨o.oparent, o.oname, o.odir, o.ocontents⟩
  | none => none

/-- The invariant tying the flash image to the in-memory state throughout
any operation sequence: the index holds exactly the in-memory objects as
non-deleted inode records, every other surviving inode is a tombstone, ids
are allocated below `nextId`, parent links descend and resolve to in-memory
directories, file chains resolve to the in-memory contents, and block
winners have descending previous-block links. -/
structure Inv (s : Sys) : Prop where
  rootMem : memLookup s.mem rootId = some rootObj
  nextPos : 1 ≤ s.nextId
  fresh : ∀ id, s.nextId ≤ id → winner s.img id = none
  memBound : ∀ id o, memLookup s.mem id = some o → id < s.nextId
  memImg : ∀ id o, memLookup s.mem id = some o →
    winner s.img id =
      some (DiskRecord.inode ⟨id, o.oseq, o.oparent, o.oname, o.odir, false, o.olastBlock⟩)
  memDir : ∀ id o, memLookup s.mem id = some o → o.odir = true →
    o.olastBlock = 0 ∧ o.ocontents = []
  memChain : ∀ id o, memLookup s.mem id = some o → o.odir = false →
    chainW (winner s.img) id s.nextId o.olastBlock = some o.ocontents
  memParent : ∀ id o, memLookup s.mem id = some o → id ≠ rootId →
    o.oparent < id ∧ ∃ po, memLookup s.mem o.oparent = some po ∧ po.odir = true
  tomb : ∀ id i, winner s.img id = some (DiskRecord.inode i) →
    memLookup s.mem id = none → i.ideleted = true
  blockPrev : ∀ id b, winner s.img id = some (DiskRecord.block b) → b.bprev < id
  lenBound : s.nextId ≤ s.img.length + 1

/-! ### The end-to-end scenario of the test case (spec section 8) -/

/-- The operation sequence of the end-to-end scenario: mkdir `/mydir`
(id 1); create `/mydir/a` (id 2) = "aaaa" (block id 3); create `/mydir/b`
(id 4) = "bbbb" (block id 5); create `/mydir/c` (id 6) = "cccc" (block
id 7); append "1234" to `/mydir/b` (block id 8). -/
def endToEndOps : List Op :=
  [Op.mkdir rootId "mydir",
   Op.mkfile 1 "a", Op.fwrite 2 [97, 97, 97, 97],
   Op.mkfile 1 "b", Op.fwrite 4 [98, 98, 98, 98],
   Op.mkfile 1 "c", Op.fwrite 6 [99, 99, 99, 99],
   Op.fwrite 4 [49, 50, 51, 52]]

/-- The flash image produced by the scenario operations. -/
def endToEndImg : List DiskRecord := (runOps endToEndOps).img

/-- The scenario image with the payload of `/mydir/b`'s second block
(object id 8, the last block record appended) corrupted: two payload bytes
are overwritten, so at scan granularity the record is exactly a
checksum-invalid record. -/
def corruptedAreas : List (List ScanItem) :=
  [endToEndImg.map
    (fun r => if r.rid = 8 then ScanItem.badCk r else ScanItem.ok r)]

/-- The tree the scenario must restore to: root, `/mydir`, `/mydir/a` =
"aaaa" and `/mydir/c` = "cccc"; `/mydir/b` (id 4) is absent, as is every
other id. -/
def expectedTree : Nat → Option FsView := fun id =>
  if id = 0 then some ⟨0, "", true, []⟩
  else if id = 1 then some ⟨0, "mydir", true, []⟩
  else if id = 2 then some ⟨1, "a", false, [97, 97, 97, 97]⟩
  else if id = 6 then some ⟨1, "c", false, [99, 99, 99, 99]⟩
  else none

end NffsModel

namespace LogNmgr

/-!
Shallow embedding of `src/sys/log/src/log_nmgr.c`.

The headers `os/os.h`, `log/log.h`, `mgmt/mgmt.h` and the tinycbor encoder
are external to this snapshot; their constants are fixed here by name (only
`OS_OK = 0` versus nonzero matters to the claims) and the CBOR byte counts
are modelled by one deterministic size function used both for the counting
pass and for the real pass, exactly as the code requires the two encoding
blocks to match ("NOTE This code should exactly match what is below").
Flash reads (`log_read`) are modelled as total reads from the entry's
stored bytes.
-/

/-- OS success code. -/
def OS_OK : Nat := 0

/-- OS out-of-memory error code (nonzero). -/
def OS_ENOMEM : Nat := 1

/-- OS invalid-argument error code (nonzero). -/
def OS_EINVAL : Nat := 2

/-- OS not-found error code (nonzero). -/
def OS_ENOENT : Nat := 3

/-- Size in bytes of `struct log_entry_hdr` (`sizeof(ueh)` in the code);
the header lives in `log/log.h`, outside this snapshot, and the claims hold
or fail for any positive value. -/
def LOG_ENTRY_HDR_SIZE : Nat := 16

/-- The management-transport MTU bound checked against `rsp_len`. -/
def MGMT_MAX_MTU : Nat := 400

/-- Size of the local buffer `char data[128]` in `log_nmgr_encode_entry`. -/
def DATA_BUF_SIZE : Nat := 128

/-- The stream log type, skipped by the read/clear/list handlers. -/
def LOG_TYPE_STREAM : Nat := 2

/-- C `size_t` subtraction: `a - b` computed modulo `2 ^ 64`, which wraps
to a huge value when `b > a` (the promotion in `len - sizeof(ueh)`). -/
def subSizeT (a b : Nat) : Nat := (a + 2 ^ 64 - b) % 2 ^ 64

/-- The body length `dlen = min(len - sizeof(ueh), 128)` computed by
`log_nmgr_encode_entry` (line 96), in C `size_t` arithmetic. -/
def dlenOf (len : Nat) : Nat := min (subSizeT len LOG_ENTRY_HDR_SIZE) 128

/-- The fields of `struct log_entry_hdr` read from flash; `ue_index` is the
entry's stored 32-bit index. -/
structure LogEntryHdr where
  ue_ts : Int
  ue_index : Nat
  ue_module : Nat
  ue_level : Nat
  deriving DecidableEq, Repr

/-- `struct encode_off` (lines 57-62 of the source): the response encoder,
the requested timestamp (`int64_t eo_ts`), the requested index truncated to
`uint8_t eo_index` (always `< 256`: every store into it reduces mod 256),
and the accumulated response length `rsp_len`.  The CBOR target is
modelled as the list of entries already encoded into the response. -/
structure EncodeOff where
  eo_encoder : List (List Nat × LogEntryHdr)
  eo_ts : Int
  eo_index : Nat
  rsp_len : Nat
  deriving DecidableEq, Repr

/-- Byte count of one encoded per-entry CBOR map (the counting encoder of
lines 106-134); one function serves the counting pass and the real pass. -/
def cborEntrySize (data : List Nat) (_ueh : LogEntryHdr) : Nat :=
  30 + data.length

/-- `log_nmgr_encode_entry` (lines 69-152): skip the entry (returning 0,
the `rc = OS_OK` path of lines 87-94) when its timestamp/index does not
exceed the request; otherwise read at most `dlen` body bytes, size the
encoded map with the counting encoder, and either fail with `OS_ENOMEM`
leaving the response encoder and `rsp_len` untouched, or append the entry
and commit the new length. -/
def log_nmgr_encode_entry (st : EncodeOff) (ueh : LogEntryHdr)
    (body : List Nat) (len : Nat) : Nat × EncodeOff :=
  if ueh.ue_ts < st.eo_ts ∨ (ueh.ue_ts = st.eo_ts ∧ ueh.ue_index ≤ st.eo_index) then
    (OS_OK, st)
  else
    let data := body.take (dlenOf len)
    let rsp_len := st.rsp_len + cborEntrySize data ueh
    if MGMT_MAX_MTU < rsp_len then (OS_ENOMEM, st)
    else
      (OS_OK,
       { st with rsp_len := rsp_len, eo_encoder := st.eo_encoder ++ [(data, ueh)] })

/-- `log_walk` over a log's entries (the walker itself lives in `log.c`,
outside this snapshot): the callback runs per entry and a nonzero return
aborts the walk with that code. -/
def log_walk (st : EncodeOff) :
    List (LogEntryHdr × List Nat × Nat) → Nat × EncodeOff
  | [] => (OS_OK, st)
  | (ueh, body, len) :: rest =>
    let r := log_nmgr_encode_entry st ueh body len
    if r.1 = OS_OK then log_walk r.2 rest else r

/-- CBOR overhead of the "entries" key plus array wrapper counted by
lines 171-187. -/
def cborEntriesHdrSize : Nat := 10

/-- `log_encode_entries` (lines 159-203): pre-check the outer wrapper
against the MTU, then store the request into `struct encode_off` — the
assignment `encode_off.eo_index = index` truncates the 32-bit index to the
`uint8_t` field, hence `% 256` — and walk the entries.  Returns the walk's
code, the encoded entries, and the final accumulated length. -/
def log_encode_entries (entries : List (LogEntryHdr × List Nat × Nat))
    (cbLen : Nat) (ts : Int) (idx : Nat) :
    Nat × List (List Nat × LogEntryHdr) × Nat :=
  let rsp_len := cbLen + cborEntriesHdrSize
  if MGMT_MAX_MTU < rsp_len then (OS_ENOMEM, [], rsp_len)
  else
    let st : EncodeOff := ⟨[], ts, idx % 256, rsp_len⟩
    let r := log_walk st entries
    (r.1, r.2.eo_encoder, r.2.rsp_len)

/-- One registered log: its name, its `log_type`, and its entries, each
with header, stored body bytes and total stored length. -/
structure LogT where
  l_name : String
  log_type : Nat
  l_entries : List (LogEntryHdr × List Nat × Nat)
  deriving DecidableEq, Repr

/-- CBOR overhead of a log's name/type map header (lines 219-224). -/
def cborLogHdrSize (lg : LogT) : Nat := 12 + lg.l_name.length

/-- `log_encode` (lines 211-229): encode the name/type wrapper then the
entries; the return code is `log_encode_entries`'s. -/
def log_encode (lg : LogT) (cbLen : Nat) (ts : Int) (idx : Nat) :
    Nat × List (List Nat × LogEntryHdr) × Nat :=
  log_encode_entries lg.l_entries (cbLen + cborLogHdrSize lg) ts idx

/-- CBOR overhead of the outer response map and the "logs" key/array
written before the loop (lines 277-280). -/
def cborReadBaseSize : Nat := 10

/-- The `while (1)` loop of `log_nmgr_read` (lines 284-308): skip stream
logs; when a name was requested skip non-matching logs; encode each
remaining log, jumping to `err` with the code on failure; break after the
first named match.  Returns the loop's `rc`, whether the loop exited with
`log != NULL` (break or error), and the logs encoded into the response. -/
def readLoop (nm : String) (ts : Int) (idx : Nat) :
    List LogT → Nat → Nat × Bool × List (String × List (List Nat × LogEntryHdr))
  | [], _ => (OS_OK, false, [])
  | lg :: rest, cbLen =>
    if lg.log_type = LOG_TYPE_STREAM then readLoop nm ts idx rest cbLen
    else if 0 < nm.length ∧ nm ≠ lg.l_name then readLoop nm ts idx rest cbLen
    else
      let r := log_encode lg cbLen ts idx
      if r.1 ≠ OS_OK then (r.1, true, [(lg.l_name, r.2.1)])
      else if 0 < nm.length then (OS_OK, true, [(lg.l_name, r.2.1)])
      else
        let rest' := readLoop nm ts idx rest r.2.2
        (rest'.1, rest'.2.1, (lg.l_name, r.2.1) :: rest'.2.2)

/-- The response of `log_nmgr_read`: the encoded logs and the value written
into the response's "rc" field at the `err:` label (lines 316-319). -/
structure ReadRsp where
  logsOut : List (String × List (List Nat × LogEntryHdr))
  rcField : Nat
  deriving DecidableEq, Repr

/-- `log_nmgr_read` (lines 236-324), after the request attributes have been
parsed: the 64-bit "index" attribute is passed to `log_encode`'s `uint32_t`
parameter (hence `% 2 ^ 32`); the loop runs; running out of logs while a
specific log was requested sets `rc = OS_EINVAL`; the `err:` epilogue
encodes `rc` into the response, then sets `rc = 0` and returns it — the
function's return value is 0 even when an error was recorded. -/
def log_nmgr_read (logs : List LogT) (nm : String) (ts : Int)
    (reqIdx : Nat) : Nat × ReadRsp :=
  let r := readLoop nm ts (reqIdx % 2 ^ 32) logs cborReadBaseSize
  let rc := if r.2.1 = false ∧ 0 < nm.length then OS_EINVAL else r.1
  (OS_OK, ⟨r.2.2, rc⟩)

end LogNmgr


namespace NffsModel

/-! ### Basic lemmas about the object index -/

theorem insertRec_rid_self (w : Nat → Option DiskRecord) (r : DiskRecord) :
    insertRec w r r.rid =
      match w r.rid with
      | none => some r
      | some old => if old.rseq < r.rseq then some r else some old := by
  simp [insertRec]

theorem insertRec_ne (w : Nat → Option DiskRecord) (r : DiskRecord) (id : Nat)
    (h : id ≠ r.rid) : insertRec w r id = w id := by
  simp [insertRec, h]

theorem winner_append (l : List DiskRecord) (r : DiskRecord) :
    winner (l ++ [r]) = insertRec (winner l) r := by
  simp [winner, List.foldl_append]

/-- The accumulated index at a given id only depends on the records carrying
that id, and on the initial value of the accumulator at that id. -/
theorem foldl_insertRec_eq_of_agree (l : List DiskRecord)
    (w₁ w₂ : Nat → Option DiskRecord) (id : Nat) (h : w₁ id = w₂ id) :
    (l.foldl insertRec w₁) id = (l.foldl insertRec w₂) id := by
  induction l generalizing w₁ w₂ with
  | nil => simpa using h
  | cons a t ih =>
    simp only [List.foldl_cons]
    apply ih
    by_cases ha : id = a.rid
    · subst ha
      simp [insertRec, h]
    · rw [insertRec_ne _ _ _ ha, insertRec_ne _ _ _ ha, h]

/-- The accumulated index at a given id ignores records with other ids. -/
theorem foldl_insertRec_filter (l : List DiskRecord)
    (w : Nat → Option DiskRecord) (id : Nat) :
    (l.foldl insertRec w) id =
      ((l.filter (fun r => r.rid = id)).foldl insertRec w) id := by
  induction l generalizing w with
  | nil => rfl
  | cons a t ih =>
    by_cases ha : a.rid = id
    · simp only [List.foldl_cons, List.filter_cons, ha, decide_eq_true_eq, if_true]
      exact ih (insertRec w a)
    · simp only [List.filter_cons, List.foldl_cons, decide_eq_true_eq, ha, if_false]
      rw [ih (insertRec w a)]
      apply foldl_insertRec_eq_of_agree
      exact insertRec_ne w a id (fun h => ha h.symm)

/-- A record that is the strict sequence-number maximum among all records
sharing its id ends up indexed, regardless of the order in which records are
encountered.  The generalized accumulator form used for the induction. -/
theorem foldl_insertRec_strict_max (l : List DiskRecord) (r : DiskRecord)
    (w : Nat → Option DiskRecord)
    (hmax : ∀ r' ∈ l, r'.rid = r.rid → r' = r ∨ r'.rseq < r.rseq)
    (hst : w r.rid = some r ∨
      ((w r.rid = none ∨ ∃ v, w r.rid = some v ∧ v.rseq < r.rseq) ∧ r ∈ l)) :
    (l.foldl insertRec w) r.rid = some r := by
  induction l generalizing w with
  | nil =>
    rcases hst with h | ⟨_, hmem⟩
    · simpa using h
    · simp at hmem
  | cons a t ih =>
    simp only [List.foldl_cons]
    apply ih
    · intro r' hr' hid
      exact hmax r' (List.mem_cons_of_mem a hr') hid
    · rcases hst with hsome | ⟨hnl, hmem⟩
      · left
        by_cases ha : a.rid = r.rid
        · rcases hmax a (List.mem_cons_self a t) ha with rfl | hlt
          · rw [← ha, insertRec_rid_self, ha, hsome]
            simp
          · rw [← ha, insertRec_rid_self, ha, hsome]
            simp [Nat.not_lt.mpr (Nat.le_of_lt hlt)]
        · rw [insertRec_ne _ _ _ (fun h => ha h.symm), hsome]
      · by_cases har : a = r
        · subst har
          left
          rcases hnl with hn | ⟨v, hv, hlt⟩
          · rw [insertRec_rid_self, hn]
          · rw [insertRec_rid_self, hv]
            simp [hlt]
        · have hmem' : r ∈ t := by
            rcases List.mem_cons.mp hmem with h | h
            · exact absurd h.symm har
            · exact h
          by_cases ha : a.rid = r.rid
          · rcases hmax a (List.mem_cons_self a t) ha with rfl | hlt
            · exact absurd rfl har
            · right
              refine ⟨?_, hmem'⟩
              right
              rcases hnl with hn | ⟨v, hv, hvlt⟩
              · exact ⟨a, by rw [← ha, insertRec_rid_self, ha, hn], hlt⟩
              · rw [← ha, insertRec_rid_self, ha, hv]
                by_cases hva : v.rseq < a.rseq
                · exact ⟨a, by simp [hva], hlt⟩
                · exact ⟨v, by simp [hva], hvlt⟩
          · right
            refine ⟨?_, hmem'⟩
            rw [insertRec_ne _ _ _ (fun h => ha h.symm)]
            exact hnl

/-- A record that is the strict sequence-number maximum among all records
sharing its id is the one the restored Object Index holds for that id. -/
theorem winner_strict_max (l : List DiskRecord) (r : DiskRecord)
    (hmem : r ∈ l)
    (hmax : ∀ r' ∈ l, r'.rid = r.rid → r' = r ∨ r'.rseq < r.rseq) :
    winner l r.rid = some r := by
  apply foldl_insertRec_strict_max l r _ hmax
  right
  exact ⟨Or.inl rfl, hmem⟩

/-- An id carried by no record is absent from the restored Object Index. -/
theorem winner_not_mem (l : List DiskRecord) (id : Nat)
    (h : ∀ r ∈ l, r.rid ≠ id) : winner l id = none := by
  rw [winner, foldl_insertRec_filter]
  have : l.filter (fun r => r.rid = id) = [] := by
    apply List.filter_eq_nil_iff.mpr
    intro r hr
    simpa using h r hr
  rw [this]
  rfl

/-! ### Monotonicity and stability of the chain and reachability walks -/

theorem chainW_mono_fuel (w : Nat → Option DiskRecord) (owner : Nat)
    (f f' hd : Nat) (hf : f ≤ f') (cs : List Nat)
    (h : chainW w owner f hd = some cs) : chainW w owner f' hd = some cs := by
  induction f generalizing f' hd cs with
  | zero =>
    cases hd with
    | zero => cases f' <;> simpa [chainW] using h
    | succ n => simp [chainW] at h
  | succ f ih =>
    cases hd with
    | zero => cases f' <;> simpa [chainW] using h
    | succ n =>
      obtain ⟨f'', rfl⟩ : ∃ f'', f' = f'' + 1 := ⟨f' - 1, by omega⟩
      simp only [chainW] at h ⊢
      cases hw : w (n + 1) with
      | none => rw [hw] at h; simp at h
      | some r =>
        cases r with
        | inode i => rw [hw] at h; simp at h
        | block b =>
          rw [hw] at h
          simp only at h ⊢
          by_cases hb : b.bowner = owner
          · simp only [hb, if_true] at h ⊢
            cases hc : chainW w owner f b.bprev with
            | none => rw [hc] at h; simp at h
            | some cs' =>
              rw [hc] at h
              rw [ih f'' b.bprev (by omega) cs' hc]
              exact h
          · simp [hb] at h

theorem reachW_mono_fuel (w : Nat → Option DiskRecord) (f f' id : Nat)
    (hf : f ≤ f') (h : reachW w f id = true) : reachW w f' id = true := by
  induction f generalizing f' id with
  | zero =>
    cases id with
    | zero => cases f' <;> simp [reachW]
    | succ n => simp [reachW] at h
  | succ f ih =>
    cases id with
    | zero => cases f' <;> simp [reachW]
    | succ n =>
      obtain ⟨f'', rfl⟩ : ∃ f'', f' = f'' + 1 := ⟨f' - 1, by omega⟩
      simp only [reachW] at h ⊢
      cases hw : w (n + 1) with
      | none => rw [hw] at h; simp at h
      | some r =>
        cases r with
        | block b => rw [hw] at h; simp at h
        | inode i =>
          rw [hw] at h
          simp only at h ⊢
          simp only [Bool.and_eq_true] at h ⊢
          exact ⟨h.1, ih f'' i.iparent (by omega) h.2⟩

/-- A successful chain walk is stable under any change of the index that
preserves every id currently resolving to a block: the walk only ever reads
block entries. -/
theorem chainW_stable (w w' : Nat → Option DiskRecord) (owner : Nat)
    (hpres : ∀ x b, w x = some (DiskRecord.block b) →
      w' x = some (DiskRecord.block b))
    (f hd : Nat) (cs : List Nat)
    (h : chainW w owner f hd = some cs) : chainW w' owner f hd = some cs := by
  induction f generalizing hd cs with
  | zero =>
    cases hd with
    | zero => simpa [chainW] using h
    | succ n => simp [chainW] at h
  | succ f ih =>
    cases hd with
    | zero => simpa [chainW] using h
    | succ n =>
      simp only [chainW] at h ⊢
      cases hw : w (n + 1) with
      | none => rw [hw] at h; simp at h
      | some r =>
        cases r with
        | inode i => rw [hw] at h; simp at h
        | block b =>
          rw [hw] at h
          rw [hpres _ _ hw]
          simp only at h ⊢
          by_cases hb : b.bowner = owner
          · simp only [hb, if_true] at h ⊢
            cases hc : chainW w owner f b.bprev with
            | none => rw [hc] at h; simp at h
            | some cs' =>
              rw [hc] at h
              rw [ih b.bprev cs' hc]
              exact h
          · simp [hb] at h

/-- A successful reachability walk is stable under any change of the index
that preserves every id currently resolving to an inode: the walk only ever
reads inode entries. -/
theorem reachW_stable (w w' : Nat → Option DiskRecord)
    (hpres : ∀ x i, w x = some (DiskRecord.inode i) →
      w' x = some (DiskRecord.inode i))
    (f id : Nat) (h : reachW w f id = true) : reachW w' f id = true := by
  induction f generalizing id with
  | zero =>
    cases id with
    | zero => simp [reachW]
    | succ n => simp [reachW] at h
  | succ f ih =>
    cases id with
    | zero => simp [reachW]
    | succ n =>
      simp only [reachW] at h ⊢
      cases hw : w (n + 1) with
      | none => rw [hw] at h; simp at h
      | some r =>
        cases r with
        | block b => rw [hw] at h; simp at h
        | inode i =>
          rw [hw] at h
          rw [hpres _ _ hw]
          simp only at h ⊢
          simp only [Bool.and_eq_true] at h ⊢
          exact ⟨h.1, ih i.iparent h.2⟩

/-! ### Scan lemmas -/

theorem scanArea_map_ok (l : List DiskRecord) :
    scanArea (l.map ScanItem.ok) = (l, (l.map recSize).sum) := by
  induction l with
  | nil => rfl
  | cons r t ih => simp [scanArea, ih]

theorem scanArea_ok_trunc (oks : List DiskRecord) (rest : List ScanItem) :
    scanArea (oks.map ScanItem.ok ++ ScanItem.truncated :: rest) =
      scanArea (oks.map ScanItem.ok) := by
  induction oks with
  | nil => rfl
  | cons r t ih => simp [scanArea, ih]

theorem areaRecs_append (xs ys : List (List ScanItem)) :
    areaRecs (xs ++ ys) = areaRecs xs ++ areaRecs ys := by
  induction xs with
  | nil => rfl
  | cons a t ih => simp [areaRecs, List.foldr] at ih ⊢; simp [ih]

theorem areaRecs_cons (a : List ScanItem) (ys : List (List ScanItem)) :
    areaRecs (a :: ys) = (scanArea a).1 ++ areaRecs ys := rfl

/-! ### Gap lemmas -/

theorem chainW_none_of_not_block (w : Nat → Option DiskRecord) (owner : Nat)
    (x : Nat) (hx : x ≠ 0) (hres : ¬resolvesBlock w x) (f : Nat) :
    chainW w owner f x = none := by
  obtain ⟨m, rfl⟩ : ∃ m, x = m + 1 := ⟨x - 1, by omega⟩
  cases f with
  | zero => rfl
  | succ f =>
    simp only [chainW]
    cases hw : w (m + 1) with
    | none => rfl
    | some r =>
      cases r with
      | inode i => rfl
      | block b => exact absurd ⟨b, hw⟩ hres

theorem chainW_none_of_gap_aux (w : Nat → Option DiskRecord) (owner : Nat)
    (n : Nat) (x : Nat) (b : BlockRec) :
    ∀ hd, walkN w owner n hd = some x → x ≠ 0 →
      w x = some (DiskRecord.block b) → b.bowner = owner → b.bprev ≠ 0 →
      ¬resolvesBlock w b.bprev → ∀ f, chainW w owner f hd = none := by
  induction n with
  | zero =>
    intro hd hwalk hx hb hbo hbp hres f
    have hxd : hd = x := by simpa [walkN] using hwalk
    subst hxd
    obtain ⟨m, rfl⟩ : ∃ m, hd = m + 1 := ⟨hd - 1, by omega⟩
    cases f with
    | zero => rfl
    | succ f =>
      simp only [chainW]
      rw [hb]
      simp only [hbo, if_true]
      rw [chainW_none_of_not_block w owner b.bprev hbp hres f]
      rfl
  | succ n ih =>
    intro hd hwalk hx hb hbo hbp hres f
    simp only [walkN] at hwalk
    by_cases hhd : hd = 0
    · rw [if_pos hhd] at hwalk
      exact absurd hwalk (by simp)
    · rw [if_neg hhd] at hwalk
      obtain ⟨m, rfl⟩ : ∃ m, hd = m + 1 := ⟨hd - 1, by omega⟩
      cases hw : w (m + 1) with
      | none => rw [hw] at hwalk; exact absurd hwalk (by simp)
      | some r =>
        cases r with
        | inode i => rw [hw] at hwalk; exact absurd hwalk (by simp)
        | block b0 =>
          rw [hw] at hwalk
          simp only at hwalk
          by_cases hb0 : b0.bowner = owner
          · rw [if_pos hb0] at hwalk
            cases f with
            | zero => rfl
            | succ f =>
              simp only [chainW]
              rw [hw]
              simp only [hb0, if_true]
              rw [ih b0.bprev hwalk hx hb hbo hbp hres f]
              rfl
          · rw [if_neg hb0] at hwalk
            exact absurd hwalk (by simp)

theorem chainW_none_of_gap (w : Nat → Option DiskRecord) (owner hd : Nat)
    (hgap : hasGap w owner hd) (f : Nat) : chainW w owner f hd = none := by
  obtain ⟨n, x, b, hwalk, hx, hb, hbo, hbp, hres⟩ := hgap
  exact chainW_none_of_gap_aux w owner n x b hd hwalk hx hb hbo hbp hres f

/-! ### Claims C1 to C4 -/

/-- Claim C1: in the end-to-end scenario — format, create `/mydir`, create
`/mydir/a`="aaaa", `/mydir/b`="bbbb", `/mydir/c`="cccc", append "1234" to
`/mydir/b` so it has two blocks, corrupt the payload of `/mydir/b`'s second
block so its checksum fails, then restore — restore succeeds and the
restored tree is exactly root, `/mydir`, `/mydir/a`="aaaa" and
`/mydir/c`="cccc"; `/mydir/b` (id 4) is absent from the tree entirely, not
salvaged to "bbbb". -/
theorem claimC1 :
    (detect corruptedAreas).isSome = true ∧
    ∀ id, restoreLive (areaRecs corruptedAreas) id = expectedTree id := by
  constructor
  · decide
  · intro id
    by_cases h : id < 9
    · have hall : ((List.range 9).all
          (fun id => decide (restoreLive (areaRecs corruptedAreas) id = expectedTree id))) =
            true := by decide
      have := List.all_eq_true.mp hall id (List.mem_range.mpr h)
      simpa using this
    · have hnone : winner (areaRecs corruptedAreas) id = none := by
        apply winner_not_mem
        intro r hr
        have hall : ((areaRecs corruptedAreas).all (fun r => decide (r.rid < 9))) = true := by
          decide
        have hlt := List.all_eq_true.mp hall r hr
        simp only [decide_eq_true_eq] at hlt
        omega
      have hexp : expectedTree id = none := by
        simp only [expectedTree]
        rw [if_neg (by omega), if_neg (by omega), if_neg (by omega), if_neg (by omega)]
      rw [hexp]
      unfold restoreLive restoreLiveW
      rw [hnone]

/-- Claim C2: a file whose block chain has a gap after restore — some block
reachable from the head has a previous-block id that is not the sentinel
and does not resolve to a surviving block — is removed from the Directory
Tree entirely; it is never reattached with a truncated chain. -/
theorem claimC2 (recs : List DiskRecord) (id : Nat) (i : InodeRec)
    (hw : winner recs id = some (DiskRecord.inode i))
    (hdir : i.idir = false)
    (hgap : hasGap (winner recs) id i.ilastBlock) :
    restoreLive recs id = none := by
  unfold restoreLive restoreLiveW
  rw [hw]
  simp only
  cases hdel : i.ideleted with
  | true => simp
  | false =>
    simp only [Bool.false_eq_true, if_false]
    cases hr : reachW (winner recs) (recs.length + 1) i.iparent with
    | false => simp
    | true =>
      simp only [Bool.not_true, Bool.false_eq_true, if_false, hdir]
      rw [chainW_none_of_gap (winner recs) id i.ilastBlock hgap (recs.length + 1)]

/-- Witness for claim C2: a concrete three-record image (root, one file
inode whose head block has a dangling previous-block id) on which the file
is dropped from the restored tree. -/
theorem claimC2_witness :
    restoreLive [rootRec,
      DiskRecord.inode ⟨1, 0, 0, "f", false, false, 2⟩,
      DiskRecord.block ⟨2, 0, 1, 3, [65]⟩] 1 = none := by
  apply claimC2 _ _ ⟨1, 0, 0, "f", false, false, 2⟩ (by decide) rfl
  refine ⟨0, 2, ⟨2, 0, 1, 3, [65]⟩, by decide, by decide, by decide, by decide, by decide, ?_⟩
  intro hres
  obtain ⟨b', hb'⟩ := hres
  have hn : winner [rootRec,
      DiskRecord.inode ⟨1, 0, 0, "f", false, false, 2⟩,
      DiskRecord.block ⟨2, 0, 1, 3, [65]⟩] 3 = none := by decide
  rw [hn] at hb'
  exact absurd hb' (by simp)

/-- Claim C3: restore indexes, for each object id, exactly the record with
the strictly greatest sequence number among all records carrying that id,
regardless of which area or offset the copies reside at; and a record whose
sequence number is not strictly greater than the indexed one never changes
the index (stale duplicates are ignored). -/
theorem claimC3 (areas : List (List ScanItem)) (r : DiskRecord)
    (hmem : r ∈ areaRecs areas)
    (hmax : ∀ r' ∈ areaRecs areas, r'.rid = r.rid → r' = r ∨ r'.rseq < r.rseq) :
    winner (areaRecs areas) r.rid = some r ∧
    ∀ (w : Nat → Option DiskRecord) (r' v : DiskRecord), w r'.rid = some v →
      r'.rseq ≤ v.rseq → ∀ id, insertRec w r' id = w id := by
  constructor
  · exact winner_strict_max (areaRecs areas) r hmem hmax
  · intro w r' v hv hle id
    by_cases hid : id = r'.rid
    · subst hid
      rw [insertRec_rid_self, hv]
      simp [Nat.not_lt.mpr hle, hv]
    · exact insertRec_ne w r' id hid

/-- Witness for claim C3: two copies of object id 1 in different areas, the
later area holding the lower offset copy with the higher sequence number;
that copy is the one indexed. -/
theorem claimC3_witness :
    winner (areaRecs [[ScanItem.ok rootRec,
        ScanItem.ok (DiskRecord.inode ⟨1, 0, 0, "x", true, false, 0⟩)],
       [ScanItem.ok (DiskRecord.inode ⟨1, 1, 0, "y", true, false, 0⟩)]]) 1 =
      some (DiskRecord.inode ⟨1, 1, 0, "y", true, false, 0⟩) := by
  have h := (claimC3 [[ScanItem.ok rootRec,
        ScanItem.ok (DiskRecord.inode ⟨1, 0, 0, "x", true, false, 0⟩)],
       [ScanItem.ok (DiskRecord.inode ⟨1, 1, 0, "y", true, false, 0⟩)]]
      (DiskRecord.inode ⟨1, 1, 0, "y", true, false, 0⟩)
      (by decide) (by decide)).1
  exact h

/-- Claim C4: truncating an arbitrary suffix of record N+1 of an area (with
records 0..N intact) changes nothing observable: detect/restore yields the
same result as the image containing only records 0..N (in particular it
does not fail if that image is valid), every restored tree node is
identical, and the area's write cursor is reset to the offset at which the
invalid record starts, where scanning stopped. -/
theorem claimC4 (before after : List (List ScanItem)) (oks : List DiskRecord)
    (rest : List ScanItem) :
    detect (before ++ (oks.map ScanItem.ok ++ ScanItem.truncated :: rest) :: after) =
      detect (before ++ (oks.map ScanItem.ok) :: after) ∧
    (∀ id, restoreLive
        (areaRecs (before ++ (oks.map ScanItem.ok ++ ScanItem.truncated :: rest) :: after)) id =
      restoreLive (areaRecs (before ++ (oks.map ScanItem.ok) :: after)) id) ∧
    (scanArea (oks.map ScanItem.ok ++ ScanItem.truncated :: rest)).2 =
      (scanArea (oks.map ScanItem.ok)).2 := by
  have hrecs : areaRecs (before ++ (oks.map ScanItem.ok ++ ScanItem.truncated :: rest) :: after) =
      areaRecs (before ++ (oks.map ScanItem.ok) :: after) := by
    rw [areaRecs_append, areaRecs_append, areaRecs_cons, areaRecs_cons,
      scanArea_ok_trunc]
  refine ⟨?_, ?_, ?_⟩
  · unfold detect
    rw [hrecs]
  · intro id
    rw [hrecs]
  · rw [scanArea_ok_trunc]

/-! ### Claim C6: garbage collection -/

theorem getD_append_cons (l₁ : List (List ScanItem)) (a : List ScanItem)
    (l₂ : List (List ScanItem)) :
    (l₁ ++ a :: l₂).getD l₁.length [] = a := by
  induction l₁ with
  | nil => rfl
  | cons x t ih => simp only [List.cons_append, List.length_cons, List.getD_cons_succ]; exact ih

theorem set_append_cons (l₁ : List (List ScanItem)) (a : List ScanItem)
    (l₂ : List (List ScanItem)) :
    (l₁ ++ a :: l₂).set l₁.length [] = l₁ ++ [] :: l₂ := by
  induction l₁ with
  | nil => rfl
  | cons x t ih => simp only [List.cons_append, List.length_cons, List.set_cons_succ]; rw [ih]

theorem winner_filter (l : List DiskRecord) (id : Nat) :
    winner l id = winner (l.filter (fun r => decide (r.rid = id))) id := by
  unfold winner
  have h := foldl_insertRec_filter l (fun _ => none) id
  simpa using h

/-- Claim C6: running `collect` on an area containing no garbage — every
record of the area is live (tree-reachable, currently indexed) and is the
unique strict sequence-number maximum for its id — leaves the observable
file-system state unchanged: every restored tree node and all file contents
are equal before and after, even though records move to the scratch area;
relocated records keep their sequence numbers (collect copies them
verbatim). -/
theorem claimC6 (l₁ : List (List ScanItem)) (a : List ScanItem)
    (l₂ : List (List ScanItem))
    (hng : ∀ r ∈ (scanArea a).1,
      liveRec (areaRecs (l₁ ++ a :: l₂)) r = true ∧
      ∀ r' ∈ areaRecs (l₁ ++ a :: l₂), r'.rid = r.rid → r' = r ∨ r'.rseq < r.rseq) :
    ∀ id, restoreLive (areaRecs (collect (l₁ ++ a :: l₂) l₁.length)) id =
      restoreLive (areaRecs (l₁ ++ a :: l₂)) id := by
  intro id
  have hfilter : ((scanArea a).1.filter
      (fun r => liveRec (areaRecs (l₁ ++ a :: l₂)) r)) = (scanArea a).1 :=
    List.filter_eq_self.mpr (fun r hr => (hng r hr).1)
  have hcollect : areaRecs (collect (l₁ ++ a :: l₂) l₁.length) =
      (areaRecs l₁ ++ areaRecs l₂) ++ (scanArea a).1 := by
    simp only [collect]
    rw [getD_append_cons, set_append_cons, hfilter]
    rw [areaRecs_append, areaRecs_append, areaRecs_cons, areaRecs_cons,
      scanArea_map_ok]
    simp [areaRecs, scanArea]
  have hrecs : areaRecs (l₁ ++ a :: l₂) =
      areaRecs l₁ ++ ((scanArea a).1 ++ areaRecs l₂) := by
    rw [areaRecs_append, areaRecs_cons]
  have hmemiff : ∀ r' : DiskRecord,
      (r' ∈ (areaRecs l₁ ++ areaRecs l₂) ++ (scanArea a).1 ↔
       r' ∈ areaRecs (l₁ ++ a :: l₂)) := by
    intro r'
    rw [hrecs]
    simp [List.mem_append]
    tauto
  have hw : ∀ x, winner ((areaRecs l₁ ++ areaRecs l₂) ++ (scanArea a).1) x =
      winner (areaRecs (l₁ ++ a :: l₂)) x := by
    intro x
    by_cases hex : ∃ r ∈ (scanArea a).1, r.rid = x
    · obtain ⟨r, hrS, hrid⟩ := hex
      subst hrid
      have hmax := (hng r hrS).2
      have h₁ : winner ((areaRecs l₁ ++ areaRecs l₂) ++ (scanArea a).1) r.rid = some r := by
        apply winner_strict_max
        · exact List.mem_append_right _ hrS
        · intro r' hr' h
          exact hmax r' ((hmemiff r').mp hr') h
      have h₂ : winner (areaRecs (l₁ ++ a :: l₂)) r.rid = some r := by
        apply winner_strict_max
        · rw [hrecs]
          exact List.mem_append_right _ (List.mem_append_left _ hrS)
        · exact hmax
      rw [h₁, h₂]
    · push_neg at hex
      have hSnil : (scanArea a).1.filter (fun r => decide (r.rid = x)) = [] := by
        apply List.filter_eq_nil_iff.mpr
        intro r hr
        simpa using hex r hr
      rw [winner_filter, winner_filter (areaRecs (l₁ ++ a :: l₂))]
      rw [hrecs]
      simp only [List.filter_append, hSnil, List.append_nil, List.nil_append]
  have hlen : ((areaRecs l₁ ++ areaRecs l₂) ++ (scanArea a).1).length =
      (areaRecs (l₁ ++ a :: l₂)).length := by
    rw [hrecs]
    simp [List.length_append]
    omega
  rw [hcollect]
  unfold restoreLive
  rw [funext hw, hlen]

/-- Witness for claim C6: a concrete two-area image (root in area 0, one
directory in area 1, no garbage anywhere); collecting area 1 leaves the
restored view of the directory unchanged. -/
theorem claimC6_witness :
    restoreLive (areaRecs (collect
        [[ScanItem.ok rootRec],
         [ScanItem.ok (DiskRecord.inode ⟨1, 0, 0, "d", true, false, 0⟩)]] 1)) 1 =
      restoreLive (areaRecs
        [[ScanItem.ok rootRec],
         [ScanItem.ok (DiskRecord.inode ⟨1, 0, 0, "d", true, false, 0⟩)]]) 1 := by
  exact claimC6 [[ScanItem.ok rootRec]]
    [ScanItem.ok (DiskRecord.inode ⟨1, 0, 0, "d", true, false, 0⟩)] []
    (by decide) 1

/-! ### Table and index helper lemmas for the round-trip proof -/

theorem memLookup_mem (m : List (Nat × LiveObj)) (id : Nat) (o : LiveObj)
    (h : memLookup m id = some o) : (id, o) ∈ m := by
  induction m with
  | nil => simp [memLookup] at h
  | cons e t ih =>
    obtain ⟨k, v⟩ := e
    simp only [memLookup] at h
    by_cases hk : k = id
    · subst hk
      rw [if_pos rfl] at h
      simp only [Option.some.injEq] at h
      subst h
      exact List.mem_cons_self _ _
    · rw [if_neg hk] at h
      exact List.mem_cons_of_mem _ (ih h)

theorem memLookup_memUpdate_self (m : List (Nat × LiveObj)) (id : Nat)
    (o₀ o : LiveObj) (h : memLookup m id = some o₀) :
    memLookup (memUpdate m id o) id = some o := by
  induction m with
  | nil => simp [memLookup] at h
  | cons e t ih =>
    obtain ⟨k, v⟩ := e
    simp only [memLookup] at h
    simp only [memUpdate]
    by_cases hk : k = id
    · rw [if_pos hk]
      simp [memLookup]
    · rw [if_neg hk] at h
      rw [if_neg hk]
      simp only [memLookup, if_neg hk]
      exact ih h

theorem memLookup_memUpdate_ne (m : List (Nat × LiveObj)) (id x : Nat)
    (o : LiveObj) (hx : x ≠ id) :
    memLookup (memUpdate m id o) x = memLookup m x := by
  induction m with
  | nil => rfl
  | cons e t ih =>
    obtain ⟨k, v⟩ := e
    simp only [memUpdate]
    by_cases hk : k = id
    · rw [if_pos hk]
      simp only [memLookup]
      rw [if_neg (fun h => hx h.symm), if_neg (fun h => hx (hk ▸ h.symm))]
      exact ih
    · rw [if_neg hk]
      simp only [memLookup]
      by_cases hkx : k = x
      · rw [if_pos hkx, if_pos hkx]
      · rw [if_neg hkx, if_neg hkx]
        exact ih

theorem memLookup_memErase_self (m : List (Nat × LiveObj)) (id : Nat) :
    memLookup (memErase m id) id = none := by
  induction m with
  | nil => rfl
  | cons e t ih =>
    obtain ⟨k, v⟩ := e
    simp only [memErase]
    by_cases hk : k = id
    · rw [if_pos hk]
      exact ih
    · rw [if_neg hk]
      simp only [memLookup, if_neg hk]
      exact ih

theorem memLookup_memErase_ne (m : List (Nat × LiveObj)) (id x : Nat)
    (hx : x ≠ id) : memLookup (memErase m id) x = memLookup m x := by
  induction m with
  | nil => rfl
  | cons e t ih =>
    obtain ⟨k, v⟩ := e
    simp only [memErase]
    by_cases hk : k = id
    · rw [if_pos hk]
      simp only [memLookup]
      rw [if_neg (fun h => hx (hk ▸ h.symm))]
      exact ih
    · rw [if_neg hk]
      simp only [memLookup]
      by_cases hkx : k = x
      · rw [if_pos hkx, if_pos hkx]
      · rw [if_neg hkx, if_neg hkx]
        exact ih

theorem foldl_insertRec_rid (l : List DiskRecord) :
    ∀ w : Nat → Option DiskRecord,
      (∀ x r', w x = some r' → DiskRecord.rid r' = x) →
      ∀ x r', (l.foldl insertRec w) x = some r' → DiskRecord.rid r' = x := by
  induction l with
  | nil => intro w hw; exact hw
  | cons a t ih =>
    intro w hw x r' h'
    refine ih (insertRec w a) ?_ x r' h'
    intro y r'' hy
    unfold insertRec at hy
    by_cases hya : y = a.rid
    · rw [if_pos hya] at hy
      cases hwa : w a.rid with
      | none =>
        rw [hwa] at hy
        simp only [Option.some.injEq] at hy
        subst hy
        exact hya.symm
      | some old =>
        rw [hwa] at hy
        simp only at hy
        by_cases hlt : old.rseq < a.rseq
        · rw [if_pos hlt] at hy
          simp only [Option.some.injEq] at hy
          subst hy
          exact hya.symm
        · rw [if_neg hlt] at hy
          simp only [Option.some.injEq] at hy
          subst hy
          rw [hya]
          exact hw a.rid _ hwa
    · rw [if_neg hya] at hy
      exact hw y r'' hy

theorem winner_rid (l : List DiskRecord) (id : Nat) (r : DiskRecord)
    (h : winner l id = some r) : r.rid = id :=
  foldl_insertRec_rid l (fun _ => none) (by intro x r' h'; simp at h') id r h

theorem winner_append_ne (l : List DiskRecord) (r : DiskRecord) (x : Nat)
    (hx : x ≠ r.rid) : winner (l ++ [r]) x = winner l x := by
  rw [winner_append]
  exact insertRec_ne _ _ _ hx

theorem winner_append2 (l : List DiskRecord) (r₁ r₂ : DiskRecord) :
    winner (l ++ [r₁, r₂]) = insertRec (insertRec (winner l) r₁) r₂ := by
  unfold winner
  rw [List.foldl_append]
  rfl

theorem winner_single (r : DiskRecord) (x : Nat) :
    winner [r] x = if x = r.rid then some r else none := by
  simp [winner, insertRec, List.foldl]

theorem chainW_head_block (w : Nat → Option DiskRecord) (owner f h : Nat)
    (cs : List Nat) (hc : chainW w owner f h = some cs) (hh : h ≠ 0) :
    ∃ b, w h = some (DiskRecord.block b) := by
  obtain ⟨m, rfl⟩ : ∃ m, h = m + 1 := ⟨h - 1, by omega⟩
  cases f with
  | zero => simp [chainW] at hc
  | succ f =>
    simp only [chainW] at hc
    cases hw : w (m + 1) with
    | none => rw [hw] at hc; simp at hc
    | some r =>
      cases r with
      | inode i => rw [hw] at hc; simp at hc
      | block b => exact ⟨b, rfl⟩

theorem reachW_zero (w : Nat → Option DiskRecord) (f : Nat) :
    reachW w f 0 = true := by
  cases f <;> rfl

/-- Under the invariant, every in-memory directory is reachable from the
root in the restored index, for any fuel beyond its own id. -/
theorem reachMem (s : Sys) (hinv : Inv s) :
    ∀ id o, memLookup s.mem id = some o → o.odir = true →
      ∀ f, id + 1 ≤ f → reachW (winner s.img) f id = true := by
  intro id
  induction id using Nat.strong_induction_on with
  | _ id ih =>
    intro o ho hdir f hf
    cases id with
    | zero => exact reachW_zero _ _
    | succ n =>
      obtain ⟨f', rfl⟩ : ∃ f', f = f' + 1 := ⟨f - 1, by omega⟩
      have himg := hinv.memImg _ _ ho
      simp only [reachW]
      rw [himg]
      simp only [hdir, Bool.not_false, Bool.true_and]
      obtain ⟨hlt, po, hpo, hpodir⟩ :=
        hinv.memParent _ _ ho (by simp [rootId])
      exact ih o.oparent (by omega) po hpo hpodir f' (by omega)

/-- Under the invariant, the restored tree equals the in-memory state. -/
theorem invCorrespond (s : Sys) (hinv : Inv s) (id : Nat) :
    restoreLive s.img id = memView (memLookup s.mem id) := by
  unfold restoreLive restoreLiveW
  cases hm : memLookup s.mem id with
  | some o =>
    have himg := hinv.memImg _ _ hm
    rw [himg]
    simp only [memView]
    have hreach : reachW (winner s.img) (s.img.length + 1) o.oparent = true := by
      by_cases hid : id = rootId
      · subst hid
        rw [hinv.rootMem] at hm
        simp only [Option.some.injEq] at hm
        subst hm
        exact reachW_zero _ _
      · obtain ⟨hlt, po, hpo, hpodir⟩ := hinv.memParent _ _ hm hid
        have hbound := hinv.memBound _ _ hm
        have hlen := hinv.lenBound
        exact reachMem s hinv o.oparent po hpo hpodir _ (by omega)
    simp only [Bool.false_eq_true, if_false, hreach, Bool.not_true]
    cases hdir : o.odir with
    | true =>
      simp only [if_true]
      obtain ⟨hb, hc⟩ := hinv.memDir _ _ hm hdir
      rw [hc]
    | false =>
      simp only [Bool.false_eq_true, if_false]
      have hchain := hinv.memChain _ _ hm hdir
      have hlen := hinv.lenBound
      have hchain' := chainW_mono_fuel (winner s.img) id s.nextId
        (s.img.length + 1) o.olastBlock (by omega) o.ocontents hchain
      rw [hchain']
  | none =>
    cases hw : winner s.img id with
    | none => simp [memView]
    | some r =>
      cases r with
      | block b => simp [memView]
      | inode i =>
        have hdel := hinv.tomb _ _ hw hm
        simp [hdel, memView]

/-! ### Invariant preservation -/

theorem chainW_sentinel (w : Nat → Option DiskRecord) (owner f : Nat) :
    chainW w owner f 0 = some [] := by
  cases f <;> rfl

theorem insertRec_fresh (w : Nat → Option DiskRecord) (r : DiskRecord)
    (hw : w r.rid = none) : insertRec w r r.rid = some r := by
  unfold insertRec
  rw [if_pos rfl, hw]

theorem insertRec_newer (w : Nat → Option DiskRecord) (r old : DiskRecord)
    (hw : w r.rid = some old) (hlt : old.rseq < r.rseq) :
    insertRec w r r.rid = some r := by
  unfold insertRec
  rw [if_pos rfl, hw]
  simp [hlt]

theorem memLookup_cons (k : Nat) (v : LiveObj) (t : List (Nat × LiveObj))
    (x : Nat) :
    memLookup ((k, v) :: t) x = if k = x then some v else memLookup t x := rfl

theorem winner_some_lt (s : Sys) (hinv : Inv s) (x : Nat) (r : DiskRecord)
    (h : winner s.img x = some r) : x < s.nextId := by
  rcases Nat.lt_or_ge x s.nextId with h' | h'
  · exact h'
  · rw [hinv.fresh x h'] at h
    exact absurd h (by simp)

theorem invInit : Inv initSys := by
  refine ⟨rfl, by decide, ?_, ?_, ?_, ?_, ?_, ?_, ?_, ?_, by decide⟩
  · intro x hx
    replace hx : 1 ≤ x := hx
    rw [show initSys.img = [rootRec] from rfl, winner_single]
    rw [if_neg (fun h => by have hx0 : x = 0 := h.trans rfl; omega)]
  · intro x o hx
    simp only [initSys, memLookup] at hx
    by_cases h0 : 0 = x
    · subst h0; simp [initSys]
    · rw [if_neg h0] at hx; exact absurd hx (by simp)
  · intro x o hx
    simp only [initSys, memLookup] at hx
    by_cases h0 : 0 = x
    · subst h0
      rw [if_pos rfl] at hx
      simp only [Option.some.injEq] at hx
      subst hx
      decide
    · rw [if_neg h0] at hx; exact absurd hx (by simp)
  · intro x o hx hd
    simp only [initSys, memLookup] at hx
    by_cases h0 : 0 = x
    · subst h0
      rw [if_pos rfl] at hx
      simp only [Option.some.injEq] at hx
      subst hx
      exact ⟨rfl, rfl⟩
    · rw [if_neg h0] at hx; exact absurd hx (by simp)
  · intro x o hx hd
    simp only [initSys, memLookup] at hx
    by_cases h0 : 0 = x
    · subst h0
      rw [if_pos rfl] at hx
      simp only [Option.some.injEq] at hx
      subst hx
      exact absurd hd (by simp [rootObj])
    · rw [if_neg h0] at hx; exact absurd hx (by simp)
  · intro x o hx hxr
    simp only [initSys, memLookup] at hx
    by_cases h0 : 0 = x
    · exact absurd (h0.symm.trans rfl) (by simpa [rootId] using hxr)
    · rw [if_neg h0] at hx; exact absurd hx (by simp)
  · intro x i hw hm
    rw [show initSys.img = [rootRec] from rfl, winner_single] at hw
    by_cases h0 : x = rootRec.rid
    · rw [if_pos h0] at hw
      have hx0 : x = 0 := h0.trans rfl
      rw [hx0] at hm
      exact absurd hm (by simp [initSys, memLookup])
    · rw [if_neg h0] at hw; exact absurd hw (by simp)
  · intro x b hw
    rw [show initSys.img = [rootRec] from rfl, winner_single] at hw
    by_cases h0 : x = rootRec.rid
    · rw [if_pos h0] at hw
      exact absurd hw (by simp [rootRec])
    · rw [if_neg h0] at hw; exact absurd hw (by simp)

theorem invCreate (s : Sys) (hinv : Inv s) (p : Nat) (nm : String)
    (dirFlag : Bool) (po : LiveObj) (hp : memLookup s.mem p = some po)
    (hpdir : po.odir = true) : Inv (doCreate s p nm dirFlag) := by
  have hpd : p < s.nextId := hinv.memBound _ _ hp
  have hwnew : ∀ x, winner (s.img ++ [DiskRecord.inode ⟨s.nextId, 0, p, nm, dirFlag, false, 0⟩]) x =
      if x = s.nextId then some (DiskRecord.inode ⟨s.nextId, 0, p, nm, dirFlag, false, 0⟩)
      else winner s.img x := by
    intro x
    rw [winner_append]
    by_cases hx : x = s.nextId
    · subst hx
      rw [if_pos rfl]
      exact insertRec_fresh _ _ (hinv.fresh _ le_rfl)
    · rw [if_neg hx]
      exact insertRec_ne _ _ _ hx
  have hpres : ∀ y b, winner s.img y = some (DiskRecord.block b) →
      winner (doCreate s p nm dirFlag).img y = some (DiskRecord.block b) := by
    intro y b hy
    show winner (s.img ++ [DiskRecord.inode ⟨s.nextId, 0, p, nm, dirFlag, false, 0⟩]) y = _
    rw [hwnew]
    rw [if_neg (fun h => by rw [h, hinv.fresh _ le_rfl] at hy; exact absurd hy (by simp))]
    exact hy
  refine ⟨?_, by show 1 ≤ s.nextId + 1; omega, ?_, ?_, ?_, ?_, ?_, ?_, ?_, ?_, ?_⟩
  · show memLookup ((s.nextId, _) :: s.mem) rootId = some rootObj
    rw [memLookup_cons]
    rw [if_neg (fun h => by have := hinv.nextPos; have h0 : s.nextId = 0 := h.trans rfl; omega)]
    exact hinv.rootMem
  · intro x hx
    show winner (s.img ++ _) x = none
    rw [hwnew, if_neg (by simp [doCreate] at hx; omega)]
    exact hinv.fresh x (by simp [doCreate] at hx; omega)
  · intro x o hx
    simp only [doCreate, memLookup_cons] at hx ⊢
    by_cases hxn : s.nextId = x
    · omega
    · rw [if_neg hxn] at hx
      have := hinv.memBound _ _ hx
      omega
  · intro x o hx
    simp only [doCreate, memLookup_cons] at hx ⊢
    rw [hwnew]
    by_cases hxn : s.nextId = x
    · rw [if_pos hxn] at hx
      simp only [Option.some.injEq] at hx
      subst hx
      rw [if_pos hxn.symm, ← hxn]
    · rw [if_neg hxn] at hx
      rw [if_neg (fun h => hxn h.symm)]
      exact hinv.memImg _ _ hx
  · intro x o hx hd
    simp only [doCreate, memLookup_cons] at hx
    by_cases hxn : s.nextId = x
    · rw [if_pos hxn] at hx
      simp only [Option.some.injEq] at hx
      subst hx
      exact ⟨rfl, rfl⟩
    · rw [if_neg hxn] at hx
      exact hinv.memDir _ _ hx hd
  · intro x o hx hd
    simp only [doCreate, memLookup_cons] at hx ⊢
    by_cases hxn : s.nextId = x
    · rw [if_pos hxn] at hx
      simp only [Option.some.injEq] at hx
      subst hx
      exact chainW_sentinel _ _ _
    · rw [if_neg hxn] at hx
      have hc := hinv.memChain _ _ hx hd
      have hc' := chainW_stable _ _ x hpres s.nextId o.olastBlock o.ocontents hc
      exact chainW_mono_fuel _ _ s.nextId (s.nextId + 1) _ (by omega) _ hc'
  · intro x o hx hxr
    simp only [doCreate, memLookup_cons] at hx ⊢
    by_cases hxn : s.nextId = x
    · rw [if_pos hxn] at hx
      simp only [Option.some.injEq] at hx
      subst hx
      refine ⟨?_, po, ?_, hpdir⟩
      · show p < x
        omega
      · rw [if_neg (show ¬s.nextId = (⟨p, nm, dirFlag, 0, 0, []⟩ : LiveObj).oparent from
          fun h => by have hq : s.nextId = p := h.trans rfl; omega)]
        exact hp
    · rw [if_neg hxn] at hx
      obtain ⟨hlt, po', hpo', hpodir'⟩ := hinv.memParent _ _ hx hxr
      have hb := hinv.memBound _ _ hx
      refine ⟨hlt, po', ?_, hpodir'⟩
      rw [if_neg (by omega)]
      exact hpo'
  · intro x i hw hm
    simp only [doCreate, memLookup_cons] at hm
    rw [show (doCreate s p nm dirFlag).img = s.img ++ _ from rfl, hwnew] at hw
    by_cases hxn : x = s.nextId
    · rw [if_pos (by omega : s.nextId = x)] at hm
      exact absurd hm (by simp)
    · rw [if_neg hxn] at hw
      rw [if_neg (fun h => hxn h.symm)] at hm
      exact hinv.tomb _ _ hw hm
  · intro x b hw
    rw [show (doCreate s p nm dirFlag).img = s.img ++ _ from rfl, hwnew] at hw
    by_cases hxn : x = s.nextId
    · rw [if_pos hxn] at hw
      exact absurd hw (by simp)
    · rw [if_neg hxn] at hw
      exact hinv.blockPrev _ _ hw
  · have := hinv.lenBound
    simp only [doCreate, List.length_append, List.length_cons, List.length_nil]
    omega

theorem chainW_cons_step (w : Nat → Option DiskRecord) (owner f hd : Nat)
    (b : BlockRec) (hhd : hd ≠ 0) (hw : w hd = some (DiskRecord.block b))
    (hb : b.bowner = owner) :
    chainW w owner (f + 1) hd =
      (chainW w owner f b.bprev).map (fun cs => cs ++ b.bdata) := by
  obtain ⟨m, rfl⟩ : ∃ m, hd = m + 1 := ⟨hd - 1, by omega⟩
  simp only [chainW]
  rw [hw]
  simp [hb]

theorem invWrite (s : Sys) (hinv : Inv s) (id : Nat) (o : LiveObj)
    (ho : memLookup s.mem id = some o) (hdir : o.odir = false)
    (data : List Nat) : Inv (doWrite s id o data) := by
  have hid : id < s.nextId := hinv.memBound _ _ ho
  have himg := hinv.memImg _ _ ho
  have hrootne : rootId ≠ id := by
    intro h
    have hr := hinv.rootMem
    rw [h, ho] at hr
    simp only [Option.some.injEq] at hr
    rw [hr] at hdir
    exact absurd hdir (by decide)
  have hwnew : ∀ x, winner (doWrite s id o data).img x =
      if x = s.nextId then some (DiskRecord.block ⟨s.nextId, 0, id, o.olastBlock, data⟩)
      else if x = id then
        some (DiskRecord.inode ⟨id, o.oseq + 1, o.oparent, o.oname, false, false, s.nextId⟩)
      else winner s.img x := by
    intro x
    show winner (s.img ++ [DiskRecord.block ⟨s.nextId, 0, id, o.olastBlock, data⟩,
      DiskRecord.inode ⟨id, o.oseq + 1, o.oparent, o.oname, false, false, s.nextId⟩]) x = _
    rw [winner_append2]
    by_cases hx1 : x = s.nextId
    · subst hx1
      rw [if_pos rfl]
      rw [insertRec_ne _ _ _
        (show s.nextId ≠ (DiskRecord.inode ⟨id, o.oseq + 1, o.oparent, o.oname,
          false, false, s.nextId⟩).rid from fun h => by
            have hq : s.nextId = id := h.trans rfl
            omega)]
      exact insertRec_fresh _ _ (hinv.fresh _ le_rfl)
    · rw [if_neg hx1]
      by_cases hx2 : x = id
      · subst hx2
        rw [if_pos rfl]
        have hw : insertRec (winner s.img)
            (DiskRecord.block ⟨s.nextId, 0, x, o.olastBlock, data⟩)
            (DiskRecord.inode ⟨x, o.oseq + 1, o.oparent, o.oname, false, false,
              s.nextId⟩).rid =
            some (DiskRecord.inode ⟨x, o.oseq, o.oparent, o.oname, o.odir, false,
              o.olastBlock⟩) := by
          show insertRec (winner s.img) _ x = _
          rw [insertRec_ne _ _ _ (show x ≠ (DiskRecord.block ⟨s.nextId, 0, x,
            o.olastBlock, data⟩).rid from fun h => hx1 (h.trans rfl))]
          exact himg
        exact insertRec_newer _ _ _ hw (by show o.oseq < o.oseq + 1; omega)
      · rw [if_neg hx2]
        rw [insertRec_ne _ _ _ (show x ≠ (DiskRecord.inode ⟨id, o.oseq + 1,
          o.oparent, o.oname, false, false, s.nextId⟩).rid from
          fun h => hx2 (h.trans rfl))]
        exact insertRec_ne _ _ _ (fun h => hx1 (h.trans rfl))
  have hpres : ∀ y b, winner s.img y = some (DiskRecord.block b) →
      winner (doWrite s id o data).img y = some (DiskRecord.block b) := by
    intro y b hy
    rw [hwnew]
    have hylt := winner_some_lt s hinv y _ hy
    rw [if_neg (by omega)]
    by_cases hyid : y = id
    · exfalso
      rw [hyid, himg] at hy
      simp at hy
    · rw [if_neg hyid]
      exact hy
  have hchainid := hinv.memChain _ _ ho hdir
  refine ⟨?_, by show 1 ≤ s.nextId + 1; omega, ?_, ?_, ?_, ?_, ?_, ?_, ?_, ?_, ?_⟩
  · show memLookup (memUpdate s.mem id _) rootId = some rootObj
    rw [memLookup_memUpdate_ne _ _ _ _ hrootne]
    exact hinv.rootMem
  · intro x hx
    replace hx : s.nextId + 1 ≤ x := hx
    rw [hwnew, if_neg (by omega), if_neg (by omega)]
    exact hinv.fresh x (by omega)
  · intro x o' hx'
    show x < s.nextId + 1
    by_cases hxid : x = id
    · omega
    · rw [show (doWrite s id o data).mem = memUpdate s.mem id _ from rfl,
        memLookup_memUpdate_ne _ _ _ _ hxid] at hx'
      have := hinv.memBound _ _ hx'
      omega
  · intro x o' hx'
    rw [hwnew]
    by_cases hxid : x = id
    · subst hxid
      rw [show (doWrite s x o data).mem = memUpdate s.mem x _ from rfl,
        memLookup_memUpdate_self _ _ o _ ho] at hx'
      simp only [Option.some.injEq] at hx'
      subst hx'
      rw [if_neg (by omega), if_pos rfl]
    · rw [show (doWrite s id o data).mem = memUpdate s.mem id _ from rfl,
        memLookup_memUpdate_ne _ _ _ _ hxid] at hx'
      have hxb := hinv.memBound _ _ hx'
      rw [if_neg (by omega), if_neg hxid]
      exact hinv.memImg _ _ hx'
  · intro x o' hx' hd
    by_cases hxid : x = id
    · subst hxid
      rw [show (doWrite s x o data).mem = memUpdate s.mem x _ from rfl,
        memLookup_memUpdate_self _ _ o _ ho] at hx'
      simp only [Option.some.injEq] at hx'
      subst hx'
      simp at hd
    · rw [show (doWrite s id o data).mem = memUpdate s.mem id _ from rfl,
        memLookup_memUpdate_ne _ _ _ _ hxid] at hx'
      exact hinv.memDir _ _ hx' hd
  · intro x o' hx' hd
    by_cases hxid : x = id
    · subst hxid
      rw [show (doWrite s x o data).mem = memUpdate s.mem x _ from rfl,
        memLookup_memUpdate_self _ _ o _ ho] at hx'
      simp only [Option.some.injEq] at hx'
      subst hx'
      show chainW (winner (doWrite s x o data).img) x (s.nextId + 1) s.nextId =
        some (o.ocontents ++ data)
      rw [chainW_cons_step (winner (doWrite s x o data).img) x s.nextId s.nextId
        ⟨s.nextId, 0, x, o.olastBlock, data⟩
        (by have := hinv.nextPos; omega)
        (by rw [hwnew, if_pos rfl]) rfl]
      have hc' := chainW_stable _ _ x hpres s.nextId o.olastBlock o.ocontents hchainid
      rw [hc']
      rfl
    · rw [show (doWrite s id o data).mem = memUpdate s.mem id _ from rfl,
        memLookup_memUpdate_ne _ _ _ _ hxid] at hx'
      have hc := hinv.memChain _ _ hx' hd
      have hc' := chainW_stable _ _ x hpres s.nextId o'.olastBlock o'.ocontents hc
      exact chainW_mono_fuel _ _ s.nextId (s.nextId + 1) _ (by omega) _ hc'
  · intro x o' hx' hxr
    by_cases hxid : x = id
    · subst hxid
      rw [show (doWrite s x o data).mem = memUpdate s.mem x _ from rfl,
        memLookup_memUpdate_self _ _ o _ ho] at hx'
      simp only [Option.some.injEq] at hx'
      subst hx'
      obtain ⟨hlt, po, hpo, hpodir⟩ := hinv.memParent _ _ ho hxr
      have hpne : o.oparent ≠ x := by
        intro h
        rw [h, ho] at hpo
        simp only [Option.some.injEq] at hpo
        rw [← hpo] at hpodir
        rw [hpodir] at hdir
        exact absurd hdir (by simp)
      refine ⟨?_, po, ?_, hpodir⟩
      · show o.oparent < x
        exact hlt
      · show memLookup (memUpdate s.mem x _) o.oparent = some po
        rw [memLookup_memUpdate_ne _ _ _ _ hpne]
        exact hpo
    · rw [show (doWrite s id o data).mem = memUpdate s.mem id _ from rfl,
        memLookup_memUpdate_ne _ _ _ _ hxid] at hx'
      obtain ⟨hlt, po', hpo', hpodir'⟩ := hinv.memParent _ _ hx' hxr
      have hpne : o'.oparent ≠ id := by
        intro h
        rw [h, ho] at hpo'
        simp only [Option.some.injEq] at hpo'
        rw [← hpo'] at hpodir'
        rw [hpodir'] at hdir
        exact absurd hdir (by simp)
      refine ⟨hlt, po', ?_, hpodir'⟩
      show memLookup (memUpdate s.mem id _) o'.oparent = some po'
      rw [memLookup_memUpdate_ne _ _ _ _ hpne]
      exact hpo'
  · intro x i hw hm
    rw [hwnew] at hw
    by_cases hx1 : x = s.nextId
    · rw [if_pos hx1] at hw
      simp at hw
    · rw [if_neg hx1] at hw
      by_cases hx2 : x = id
      · rw [hx2, show (doWrite s id o data).mem = memUpdate s.mem id _ from rfl,
          memLookup_memUpdate_self _ _ o _ ho] at hm
        simp at hm
      · rw [if_neg hx2] at hw
        rw [show (doWrite s id o data).mem = memUpdate s.mem id _ from rfl,
          memLookup_memUpdate_ne _ _ _ _ hx2] at hm
        exact hinv.tomb _ _ hw hm
  · intro x b hw
    rw [hwnew] at hw
    by_cases hx1 : x = s.nextId
    · rw [if_pos hx1] at hw
      simp only [Option.some.injEq, DiskRecord.block.injEq] at hw
      subst hw
      show o.olastBlock < x
      by_cases h0 : o.olastBlock = 0
      · have := hinv.nextPos
        omega
      · obtain ⟨bb, hbb⟩ := chainW_head_block _ _ _ _ _ hchainid h0
        have := winner_some_lt s hinv _ _ hbb
        omega
    · rw [if_neg hx1] at hw
      by_cases hx2 : x = id
      · rw [if_pos hx2] at hw
        simp at hw
      · rw [if_neg hx2] at hw
        exact hinv.blockPrev _ _ hw
  · have := hinv.lenBound
    show s.nextId + 1 ≤ (s.img ++ [_, _]).length + 1
    simp only [List.length_append, List.length_cons, List.length_nil]
    omega

theorem invUnlink (s : Sys) (hinv : Inv s) (id : Nat) (o : LiveObj)
    (hid : id ≠ rootId) (ho : memLookup s.mem id = some o)
    (hcf : o.odir = true → childFree s.mem id = true) :
    Inv (doUnlink s id o) := by
  have hidlt : id < s.nextId := hinv.memBound _ _ ho
  have himg := hinv.memImg _ _ ho
  have hwnew : ∀ x, winner (doUnlink s id o).img x =
      if x = id then
        some (DiskRecord.inode ⟨id, o.oseq + 1, o.oparent, o.oname, o.odir, true,
          o.olastBlock⟩)
      else winner s.img x := by
    intro x
    show winner (s.img ++ [DiskRecord.inode ⟨id, o.oseq + 1, o.oparent, o.oname,
      o.odir, true, o.olastBlock⟩]) x = _
    rw [winner_append]
    by_cases hx : x = id
    · subst hx
      rw [if_pos rfl]
      exact insertRec_newer _ _ _ himg (by show o.oseq < o.oseq + 1; omega)
    · rw [if_neg hx]
      exact insertRec_ne _ _ _ (fun h => hx (h.trans rfl))
  have hpres : ∀ y b, winner s.img y = some (DiskRecord.block b) →
      winner (doUnlink s id o).img y = some (DiskRecord.block b) := by
    intro y b hy
    rw [hwnew]
    by_cases hyid : y = id
    · exfalso
      rw [hyid, himg] at hy
      simp at hy
    · rw [if_neg hyid]
      exact hy
  have hchildless : ∀ x o', memLookup s.mem x = some o' → x ≠ id →
      o'.oparent ≠ id := by
    intro x o' hx' hxid hpar
    by_cases hxr : x = rootId
    · subst hxr
      rw [hinv.rootMem] at hx'
      simp only [Option.some.injEq] at hx'
      rw [← hx'] at hpar
      have h0 : (0 : Nat) = id := hpar
      exact hid h0.symm
    · obtain ⟨hlt, po, hpo, hpodir⟩ := hinv.memParent _ _ hx' hxr
      rw [hpar, ho] at hpo
      simp only [Option.some.injEq] at hpo
      have hodir : o.odir = true := by rw [hpo]; exact hpodir
      have hcf' := hcf hodir
      have hmem := memLookup_mem _ _ _ hx'
      have := List.all_eq_true.mp hcf' _ hmem
      simp only [decide_eq_true_eq] at this
      rcases this with h | h
      · exact h hpar
      · exact hxr h
  refine ⟨?_, hinv.nextPos, ?_, ?_, ?_, ?_, ?_, ?_, ?_, ?_, ?_⟩
  · show memLookup (memErase s.mem id) rootId = some rootObj
    rw [memLookup_memErase_ne _ _ _ (fun h => hid h.symm)]
    exact hinv.rootMem
  · intro x hx
    replace hx : s.nextId ≤ x := hx
    rw [hwnew, if_neg (by omega)]
    exact hinv.fresh x hx
  · intro x o' hx'
    show x < s.nextId
    by_cases hxid : x = id
    · omega
    · rw [show (doUnlink s id o).mem = memErase s.mem id from rfl,
        memLookup_memErase_ne _ _ _ hxid] at hx'
      exact hinv.memBound _ _ hx'
  · intro x o' hx'
    by_cases hxid : x = id
    · rw [hxid, show (doUnlink s id o).mem = memErase s.mem id from rfl,
        memLookup_memErase_self] at hx'
      exact absurd hx' (by simp)
    · rw [show (doUnlink s id o).mem = memErase s.mem id from rfl,
        memLookup_memErase_ne _ _ _ hxid] at hx'
      rw [hwnew, if_neg hxid]
      exact hinv.memImg _ _ hx'
  · intro x o' hx' hd
    by_cases hxid : x = id
    · rw [hxid, show (doUnlink s id o).mem = memErase s.mem id from rfl,
        memLookup_memErase_self] at hx'
      exact absurd hx' (by simp)
    · rw [show (doUnlink s id o).mem = memErase s.mem id from rfl,
        memLookup_memErase_ne _ _ _ hxid] at hx'
      exact hinv.memDir _ _ hx' hd
  · intro x o' hx' hd
    by_cases hxid : x = id
    · rw [hxid, show (doUnlink s id o).mem = memErase s.mem id from rfl,
        memLookup_memErase_self] at hx'
      exact absurd hx' (by simp)
    · rw [show (doUnlink s id o).mem = memErase s.mem id from rfl,
        memLookup_memErase_ne _ _ _ hxid] at hx'
      have hc := hinv.memChain _ _ hx' hd
      exact chainW_stable _ _ x hpres s.nextId o'.olastBlock o'.ocontents hc
  · intro x o' hx' hxr
    by_cases hxid : x = id
    · rw [hxid, show (doUnlink s id o).mem = memErase s.mem id from rfl,
        memLookup_memErase_self] at hx'
      exact absurd hx' (by simp)
    · rw [show (doUnlink s id o).mem = memErase s.mem id from rfl,
        memLookup_memErase_ne _ _ _ hxid] at hx'
      obtain ⟨hlt, po, hpo, hpodir⟩ := hinv.memParent _ _ hx' hxr
      have hpne : o'.oparent ≠ id := hchildless x o' hx' hxid
      refine ⟨hlt, po, ?_, hpodir⟩
      show memLookup (memErase s.mem id) o'.oparent = some po
      rw [memLookup_memErase_ne _ _ _ hpne]
      exact hpo
  · intro x i hw hm
    rw [hwnew] at hw
    by_cases hxid : x = id
    · rw [if_pos hxid] at hw
      simp only [Option.some.injEq, DiskRecord.inode.injEq] at hw
      rw [← hw]
    · rw [if_neg hxid] at hw
      rw [show (doUnlink s id o).mem = memErase s.mem id from rfl,
        memLookup_memErase_ne _ _ _ hxid] at hm
      exact hinv.tomb _ _ hw hm
  · intro x b hw
    rw [hwnew] at hw
    by_cases hxid : x = id
    · rw [if_pos hxid] at hw
      simp at hw
    · rw [if_neg hxid] at hw
      exact hinv.blockPrev _ _ hw
  · have := hinv.lenBound
    show s.nextId ≤ (s.img ++ [_]).length + 1
    simp only [List.length_append, List.length_cons, List.length_nil]
    omega

theorem invStep (s : Sys) (hinv : Inv s) (op : Op) : Inv (applyOp s op) := by
  cases op with
  | mkdir p nm =>
    simp only [applyOp]
    cases hm : memLookup s.mem p with
    | none => exact hinv
    | some po =>
      show Inv (if (po.odir && nameFree s.mem p nm) = true then doCreate s p nm true else s)
      by_cases hg : (po.odir && nameFree s.mem p nm) = true
      · rw [if_pos hg]
        exact invCreate s hinv p nm true po hm (by
          simp only [Bool.and_eq_true] at hg
          exact hg.1)
      · rw [if_neg hg]
        exact hinv
  | mkfile p nm =>
    simp only [applyOp]
    cases hm : memLookup s.mem p with
    | none => exact hinv
    | some po =>
      show Inv (if (po.odir && nameFree s.mem p nm) = true then doCreate s p nm false else s)
      by_cases hg : (po.odir && nameFree s.mem p nm) = true
      · rw [if_pos hg]
        exact invCreate s hinv p nm false po hm (by
          simp only [Bool.and_eq_true] at hg
          exact hg.1)
      · rw [if_neg hg]
        exact hinv
  | fwrite id data =>
    simp only [applyOp]
    cases hm : memLookup s.mem id with
    | none => exact hinv
    | some o =>
      show Inv (if o.odir = true then s else doWrite s id o data)
      by_cases hg : o.odir = true
      · rw [if_pos hg]
        exact hinv
      · rw [if_neg hg]
        exact invWrite s hinv id o hm (by simpa using hg) data
  | funlink id =>
    simp only [applyOp]
    by_cases hr : id = rootId
    · rw [if_pos hr]
      exact hinv
    · rw [if_neg hr]
      cases hm : memLookup s.mem id with
      | none => exact hinv
      | some o =>
        show Inv (if (o.odir && !childFree s.mem id) = true then s else doUnlink s id o)
        by_cases hg : (o.odir && !childFree s.mem id) = true
        · rw [if_pos hg]
          exact hinv
        · rw [if_neg hg]
          refine invUnlink s hinv id o hr hm ?_
          intro hodir
          simp only [Bool.and_eq_true, hodir, true_and, Bool.not_eq_true',
            Bool.not_eq_true] at hg
          simpa using hg

theorem invRun (ops : List Op) : ∀ s, Inv s → Inv (ops.foldl applyOp s) := by
  induction ops with
  | nil => intro s hinv; exact hinv
  | cons op rest ih =>
    intro s hinv
    exact ih (applyOp s op) (invStep s hinv op)

/-- Claim C5: for every sequence of create, write and delete operations
(none of whose flash appends is truncated — all records are written
whole), serializing the final state to a flash image and running Restore
on it succeeds and reproduces the pre-restart state exactly: the restored
Directory Tree node and contents of every object id equal the in-memory
ones. -/
theorem claimC5 (ops : List Op) :
    detect [(runOps ops).img.map ScanItem.ok] = some (runOps ops).img ∧
    ∀ id, restoreLive (runOps ops).img id =
      memView (memLookup (runOps ops).mem id) := by
  have hinv : Inv (runOps ops) := invRun ops initSys invInit
  constructor
  · have hroot := hinv.memImg _ _ hinv.rootMem
    unfold detect
    have hrecs : areaRecs [(runOps ops).img.map ScanItem.ok] = (runOps ops).img := by
      rw [areaRecs_cons, scanArea_map_ok]
      simp [areaRecs]
    simp only [hrecs]
    rw [hroot]
    simp [rootObj]
  · intro id
    exact invCorrespond _ hinv id

end NffsModel

namespace LogNmgr

/-! ### Claims C7 to C10 -/

/-- Counterexample to claim C7 as stated: with no matching registered log
(here: no logs at all and requested name "x"), `log_nmgr_read` records
`OS_EINVAL` in the response's rc field yet returns `OS_OK` (0) to its
caller — it does not return the non-zero error code. -/
theorem claimC7_counterexample :
    log_nmgr_read [] "x" 0 0 = (OS_OK, ⟨[], OS_EINVAL⟩) ∧ OS_EINVAL ≠ OS_OK := by
  decide

/-- Claim C7 amended: the named-log read handler reports its failures
in-band rather than via its return value: it always returns 0 (`OS_OK`) to
its caller, and when it fails — the requested log name matches no
registered log (the loop runs out), or encoding fails with a nonzero
code — that nonzero code is encoded into the response's "rc" field, so the
error is reported to the requester, not swallowed. -/
theorem claimC7_amended (logs : List LogT) (nm : String) (ts : Int)
    (reqIdx : Nat) :
    (log_nmgr_read logs nm ts reqIdx).1 = OS_OK ∧
    (((readLoop nm ts (reqIdx % 2 ^ 32) logs cborReadBaseSize).2.1 = false ∧
        0 < nm.length) →
      (log_nmgr_read logs nm ts reqIdx).2.rcField = OS_EINVAL) ∧
    ((readLoop nm ts (reqIdx % 2 ^ 32) logs cborReadBaseSize).2.1 = true →
      (log_nmgr_read logs nm ts reqIdx).2.rcField =
        (readLoop nm ts (reqIdx % 2 ^ 32) logs cborReadBaseSize).1) := by
  refine ⟨rfl, ?_, ?_⟩
  · intro hc
    show (if (readLoop nm ts (reqIdx % 2 ^ 32) logs cborReadBaseSize).2.1 = false ∧
        0 < nm.length then OS_EINVAL
      else (readLoop nm ts (reqIdx % 2 ^ 32) logs cborReadBaseSize).1) = OS_EINVAL
    rw [if_pos hc]
  · intro htrue
    show (if (readLoop nm ts (reqIdx % 2 ^ 32) logs cborReadBaseSize).2.1 = false ∧
        0 < nm.length then OS_EINVAL
      else (readLoop nm ts (reqIdx % 2 ^ 32) logs cborReadBaseSize).1) =
      (readLoop nm ts (reqIdx % 2 ^ 32) logs cborReadBaseSize).1
    rw [if_neg (fun hc => by rw [htrue] at hc; exact absurd hc.1 (by simp))]

set_option maxRecDepth 4000 in
/-- Witness for claim C7 amended: no-match yields rc field `OS_EINVAL`
with return value 0, and an encode failure (three 128-byte entries
overflowing the MTU) propagates its code into the rc field. -/
theorem claimC7_witness :
    (log_nmgr_read [] "x" 0 0).2.rcField = OS_EINVAL ∧
    (log_nmgr_read [⟨"x", 0,
        [(⟨1, 1, 0, 0⟩, List.replicate 128 65, 144),
         (⟨1, 2, 0, 0⟩, List.replicate 128 65, 144),
         (⟨1, 3, 0, 0⟩, List.replicate 128 65, 144)]⟩] "x" 0 0).2.rcField =
      (readLoop "x" 0 (0 % 2 ^ 32) [⟨"x", 0,
        [(⟨1, 1, 0, 0⟩, List.replicate 128 65, 144),
         (⟨1, 2, 0, 0⟩, List.replicate 128 65, 144),
         (⟨1, 3, 0, 0⟩, List.replicate 128 65, 144)]⟩] cborReadBaseSize).1 :=
  ⟨(claimC7_amended [] "x" 0 0).2.1 (by decide),
   (claimC7_amended [⟨"x", 0,
        [(⟨1, 1, 0, 0⟩, List.replicate 128 65, 144),
         (⟨1, 2, 0, 0⟩, List.replicate 128 65, 144),
         (⟨1, 3, 0, 0⟩, List.replicate 128 65, 144)]⟩] "x" 0 0).2.2 (by decide)⟩

/-- Counterexample to claim C8 as stated: with requested index 256 (a full
32-bit value) and an entry with equal timestamp and index 1, the claim's
comparison (1 > 256 is false) says the entry must not be encoded, yet the
code does encode it, because `encode_off.eo_index` is a `uint8_t` and the
store truncates 256 to 0. -/
theorem claimC8_counterexample :
    (log_encode_entries [(⟨0, 1, 0, 0⟩, [65], LOG_ENTRY_HDR_SIZE + 1)]
        0 0 256).2.1 ≠ [] ∧
    ¬((0 : Int) < 0 ∨ ((0 : Int) = 0 ∧ 256 < 1)) := by
  decide

/-- Claim C8 amended: `log_nmgr_encode_entry` encodes an entry into the
response if and only if the entry's timestamp is strictly greater than the
requested one, or the timestamps are equal and the entry's index is
strictly greater than the requested index reduced modulo 256 — the
`uint8_t eo_index` field truncates the caller's 32-bit index to its low 8
bits — and the entry additionally fits within `MGMT_MAX_MTU`. -/
theorem claimC8_amended (ts : Int) (idx : Nat) (base : Nat)
    (ueh : LogEntryHdr) (body : List Nat) (len : Nat) :
    (log_nmgr_encode_entry ⟨[], ts, idx % 256, base⟩ ueh body len).2.eo_encoder ≠ [] ↔
      ((ts < ueh.ue_ts ∨ (ueh.ue_ts = ts ∧ idx % 256 < ueh.ue_index)) ∧
        base + cborEntrySize (body.take (dlenOf len)) ueh ≤ MGMT_MAX_MTU) := by
  simp only [log_nmgr_encode_entry]
  by_cases hf : ueh.ue_ts < ts ∨ (ueh.ue_ts = ts ∧ ueh.ue_index ≤ idx % 256)
  · rw [if_pos hf]
    simp only [ne_eq, not_true_eq_false, false_iff, not_and]
    intro hc
    exfalso
    rcases hf with h | ⟨h1, h2⟩
    · rcases hc with h' | ⟨h'1, h'2⟩
      · omega
      · omega
    · rcases hc with h' | ⟨h'1, h'2⟩
      · omega
      · omega
  · rw [if_neg hf]
    push_neg at hf
    obtain ⟨hf1, hf2⟩ := hf
    by_cases hm : MGMT_MAX_MTU < base + cborEntrySize (body.take (dlenOf len)) ueh
    · rw [if_pos hm]
      simp only [ne_eq, not_true_eq_false, false_iff, not_and]
      intro _
      omega
    · rw [if_neg hm]
      constructor
      · intro _
        refine ⟨?_, by omega⟩
        rcases Int.lt_trichotomy ts ueh.ue_ts with h | h | h
        · exact Or.inl h
        · exact Or.inr ⟨h.symm, hf2 h.symm⟩
        · omega
      · intro _
        simp

/-- Witness for claim C8 amended: at requested index 256 (truncated to 0)
an entry with equal timestamp and index 1 is encoded. -/
theorem claimC8_witness :
    (log_nmgr_encode_entry ⟨[], 0, 256 % 256, 10⟩ ⟨0, 1, 0, 0⟩ [65] 17).2.eo_encoder ≠ [] :=
  (claimC8_amended 0 256 10 ⟨0, 1, 0, 0⟩ [65] 17).mpr (by decide)

/-- Claim C9: `log_nmgr_encode_entry` appends an entry only when the
accumulated response length including that entry stays within
`MGMT_MAX_MTU` (and then commits exactly that length); when the entry
would exceed the limit it returns `OS_ENOMEM` and leaves the real encoder
and the accumulated length — the whole `encode_off` state — unchanged, the
size having been computed by the separate counting encoder before any real
encoding. -/
theorem claimC9 (st : EncodeOff) (ueh : LogEntryHdr) (body : List Nat)
    (len : Nat) :
    ((log_nmgr_encode_entry st ueh body len).2.eo_encoder ≠ st.eo_encoder →
      (log_nmgr_encode_entry st ueh body len).2.rsp_len =
        st.rsp_len + cborEntrySize (body.take (dlenOf len)) ueh ∧
      (log_nmgr_encode_entry st ueh body len).2.rsp_len ≤ MGMT_MAX_MTU) ∧
    (¬(ueh.ue_ts < st.eo_ts ∨ (ueh.ue_ts = st.eo_ts ∧ ueh.ue_index ≤ st.eo_index)) →
      MGMT_MAX_MTU < st.rsp_len + cborEntrySize (body.take (dlenOf len)) ueh →
      (log_nmgr_encode_entry st ueh body len).1 = OS_ENOMEM ∧
      (log_nmgr_encode_entry st ueh body len).2 = st) := by
  simp only [log_nmgr_encode_entry]
  by_cases hf : ueh.ue_ts < st.eo_ts ∨ (ueh.ue_ts = st.eo_ts ∧ ueh.ue_index ≤ st.eo_index)
  · rw [if_pos hf]
    exact ⟨fun h => absurd rfl h, fun hnf => absurd hf hnf⟩
  · rw [if_neg hf]
    by_cases hm : MGMT_MAX_MTU < st.rsp_len + cborEntrySize (body.take (dlenOf len)) ueh
    · rw [if_pos hm]
      exact ⟨fun h => absurd rfl h, fun _ _ => ⟨rfl, rfl⟩⟩
    · rw [if_neg hm]
      refine ⟨fun _ => ⟨rfl, ?_⟩, fun _ hm' => absurd hm' hm⟩
      show st.rsp_len + cborEntrySize (body.take (dlenOf len)) ueh ≤ MGMT_MAX_MTU
      omega

/-- Witness for claim C9: an entry that fits is appended and commits the
new length within the MTU; an entry that would overflow (base length 390)
yields `OS_ENOMEM` with the state unchanged. -/
theorem claimC9_witness :
    ((log_nmgr_encode_entry ⟨[], 0, 0, 10⟩ ⟨1, 1, 0, 0⟩ [65] 17).2.rsp_len =
        10 + cborEntrySize ([65].take (dlenOf 17)) ⟨1, 1, 0, 0⟩ ∧
      (log_nmgr_encode_entry ⟨[], 0, 0, 10⟩ ⟨1, 1, 0, 0⟩ [65] 17).2.rsp_len ≤
        MGMT_MAX_MTU) ∧
    ((log_nmgr_encode_entry ⟨[], 0, 0, 390⟩ ⟨1, 1, 0, 0⟩ [65] 17).1 = OS_ENOMEM ∧
      (log_nmgr_encode_entry ⟨[], 0, 0, 390⟩ ⟨1, 1, 0, 0⟩ [65] 17).2 =
        ⟨[], 0, 0, 390⟩) :=
  ⟨(claimC9 ⟨[], 0, 0, 10⟩ ⟨1, 1, 0, 0⟩ [65] 17).1 (by decide),
   (claimC9 ⟨[], 0, 0, 390⟩ ⟨1, 1, 0, 0⟩ [65] 17).2 (by decide) (by decide)⟩

set_option maxRecDepth 4000 in
/-- Claim C10 evaluated at its failing inputs: the claim asserts that
`dlen = min(len - sizeof(ueh), 128)` never exceeds 127 so that the store
`data[rc] = 0` stays inside the 128-byte buffer; in fact at
`len = sizeof(ueh) + 128` (and, via the unsigned wrap, at any
`len < sizeof(ueh)` such as `len = 2`) the computed `dlen` is 128, a full
128-byte read makes `rc = 128`, and the store index equals
`DATA_BUF_SIZE` — one element past the end of `char data[128]`. -/
theorem claimC10_bug :
    dlenOf (LOG_ENTRY_HDR_SIZE + 128) = 128 ∧
    dlenOf 2 = 128 ∧
    ((List.replicate 200 (0 : Nat)).take (dlenOf (LOG_ENTRY_HDR_SIZE + 128))).length =
      DATA_BUF_SIZE ∧
    ¬DATA_BUF_SIZE < DATA_BUF_SIZE := by
  decide

end LogNmgr
